import Mathlib

set_option maxHeartbeats 1000000

/-!
Verification development for the parameter-tree library (param_impl.py).

The file shallowly embeds the repository's code:
  * nested Python dicts become the inductive type Val / Dict (association
    lists of string keys, keeping Python's insertion order);
  * Python strings become lists of characters (Str), with Python's
    str.split(sep, 1) / str.split(sep) / sep.join modelled by splitFirst /
    splitAll / List.intercalate;
  * nest_dict, flatten_dict and DictDataClass.to_flattened_dict are
    transcribed from the source, with exceptions modelled by Except;
  * Parameters.get_settings is transcribed over a tree type PVal, and a
    second, id-instrumented copy over HVal tracks object identity so that
    deep-copy (sharing) properties can be stated.
-/

/-- Python strings, modelled as lists of characters. -/
abbrev Str := List Char

/-- Convenience: the character list of a string literal. -/
def str (s : String) : Str := s.data

/-- Python values stored in nested configuration dicts: numeric/opaque
leaves, lists, and nested dicts (association lists in insertion order). -/
inductive Val where
  | vnat : Nat → Val
  | vlist : List Val → Val
  | vmap : List (Str × Val) → Val

instance : Inhabited Val := ⟨Val.vnat 0⟩

/-- A Python dict with string keys, in insertion order. -/
abbrev Dict := List (Str × Val)

/-- Python dict lookup d[k] (for dicts keys are unique, so first match). -/
def dlookup (d : Dict) (k : Str) : Option Val :=
  match d with
  | [] => none
  | (k0, v) :: rest => if k0 = k then some v else dlookup rest k

/-- Python dict assignment d[k] = v: updates the existing binding in place
(keeping its position) or appends a new binding at the end. -/
def dset (d : Dict) (k : Str) (v : Val) : Dict :=
  match d with
  | [] => [(k, v)]
  | (k0, v0) :: rest => if k0 = k then (k0, v) :: rest else (k0, v0) :: dset rest k v

/-- Python dict.update(b): assign every binding of b, in order. -/
def dupdate (d : Dict) (b : Dict) : Dict :=
  b.foldl (fun acc kv => dset acc kv.1 kv.2) d

/-- The keys of a dict. -/
def keysD (d : Dict) : List Str := d.map Prod.fst

/-- The default separator of the source: the period character. -/
def dotSep : Str := ['.']

/-- Python k.split(sep, 1): the part before the first occurrence of sep,
and (if sep occurs) the remainder after it.  Only used with sep ≠ []
(Python raises on an empty separator). -/
def splitFirst (sep : Str) : Str → Str × Option Str
  | [] => ([], none)
  | c :: rest =>
    if sep.isPrefixOf (c :: rest) then ([], some ((c :: rest).drop sep.length))
    else
      let p := splitFirst sep rest
      (c :: p.1, p.2)

/-- When splitFirst finds the separator, the remainder is strictly shorter
than the input (needed for termination of splitAll). -/
def splitFirstRestLt : ∀ (k sep pre rest : Str), sep ≠ [] →
    splitFirst sep k = (pre, some rest) → rest.length < k.length := by
  intro k
  induction k with
  | nil => intro sep pre rest hsep h; simp [splitFirst] at h
  | cons c cs ih =>
    intro sep pre rest hsep h
    simp only [splitFirst] at h
    by_cases hp : sep.isPrefixOf (c :: cs)
    · simp [hp] at h
      obtain ⟨_, h2⟩ := h
      subst h2
      have hlen : 0 < sep.length := List.length_pos.mpr hsep
      simp [List.length_drop]
      omega
    · simp [hp] at h
      obtain ⟨_, h2⟩ := h
      have := ih sep (splitFirst sep cs).1 rest hsep
      rcases hr : splitFirst sep cs with ⟨pre2, o2⟩
      rw [hr] at h2
      simp at h2
      subst h2
      have := ih sep pre2 rest hsep hr
      simp
      omega

/-- Python k.split(sep): repeatedly split off the part before the first
occurrence of sep.  (Equivalent to splitting with maxsplit=1 and recursing,
which is how nest_dict consumes keys.) -/
def splitAll (sep : Str) (k : Str) : List Str :=
  if h : sep = [] then [k]
  else
    match hs : splitFirst sep k with
    | (pre, none) => [pre]
    | (pre, some rest) => pre :: splitAll sep rest
termination_by k.length
decreasing_by exact splitFirstRestLt k sep pre rest h hs

/-- The list of key segments consumed by _nest_dict_rec for one flat key:
the top-level call splits on sep once, but the recursive calls use the
DEFAULT separator (the source does not pass sep down), so the remainder is
split on the period character. -/
def nestSegs (sep : Str) (k : Str) : List Str :=
  match splitFirst sep k with
  | (k0, none) => [k0]
  | (k0, some rest) => k0 :: splitAll dotSep rest

/-- The walker of _nest_dict_rec along the segments of one key:
out.setdefault(seg, \x7b\x7d) either reuses an existing sub-dict, raises a
TypeError/AttributeError if the existing value is not a dict (modelled as
.error ()), or inserts a fresh dict; the last segment assigns the value. -/
def nest_go : List Str → Val → Dict → Except Unit Dict
  | [], _, out => .ok out
  | [k0], v, out => .ok (dset out k0 v)
  | k0 :: s1 :: segs, v, out =>
    match dlookup out k0 with
    | some (.vmap m) =>
      match nest_go (s1 :: segs) v m with
      | .error e => .error e
      | .ok m2 => .ok (dset out k0 (.vmap m2))
    | some _ => .error ()
    | none =>
      match nest_go (s1 :: segs) v [] with
      | .error e => .error e
      | .ok m2 => .ok (dset out k0 (.vmap m2))

/-- The loop of nest_dict over the entries of the flat dict. -/
def nestFold : Dict → Str → Dict → Except Unit Dict
  | [], _, out => .ok out
  | (k, v) :: rest, sep, out =>
    match nest_go (nestSegs sep k) v out with
    | .error e => .error e
    | .ok out2 => nestFold rest sep out2

/-- nest_dict(flat, sep) from the source: builds a nested dict from the
flat one, entry by entry.  A TypeError raised by a conflicting
leaf/mapping assignment is modelled as .error (). -/
def nest_dict (flat : Dict) (sep : Str) : Except Unit Dict :=
  nestFold flat sep []

/-- The loop of flatten_dict: each value that is a dict is flattened
recursively under the extended parent key and merged with dict.update;
any other value becomes a flat leaf under the joined key. -/
def flattenLoop (sep parent : Str) (acc : Dict) : Dict → Dict
  | [] => acc
  | (k, v) :: rest =>
    let kj := if parent = [] then k else parent ++ sep ++ k
    match v with
    | .vmap m => flattenLoop sep parent (dupdate acc (flattenLoop sep kj [] m)) rest
    | _ => flattenLoop sep parent (dset acc kj v) rest
termination_by d => sizeOf d
decreasing_by
  all_goals (simp; try omega)

/-- flatten_dict(d, sep, parent_key) from the source. -/
def flatten_dict (d : Dict) (sep : Str) (parent : Str) : Dict :=
  flattenLoop sep parent [] d

/-- The post-processing loop of to_flattened_dict: every flat key that
ENDS WITH the string "grid_search" is replaced by the key with its last
sep-segment dropped, bound to the one-entry dict mapping "grid_search" to
the original value. -/
def gridLoop (sep : Str) (acc : Dict) : Dict → Dict
  | [] => acc
  | (k, v) :: rest =>
    if (str "grid_search").isSuffixOf k then
      let parts := splitAll sep k
      gridLoop sep (dset acc (List.intercalate sep parts.dropLast) (.vmap [(str "grid_search", v)])) rest
    else gridLoop sep (dset acc k v) rest

/-- DictDataClass.to_flattened_dict(sep) from the source, applied to the
nested-dict form d of the instance (self.to_dict()).  Note that the source
calls flatten_dict with its DEFAULT separator (the period), not with sep;
sep is only used by the grid_search rewriting pass. -/
def to_flattened_dict (d : Dict) (sep : Str) : Dict :=
  gridLoop sep [] (flatten_dict d dotSep [])

/-! ### The expansion algorithm: Parameters.get_settings -/

/-- The error raised during expansion: the ValueError for an empty
settings list (naming the offending field, per the message
"Empty settings list for k"), or the AttributeError raised when
get_settings is invoked on a value that is not a Parameters instance. -/
inductive Err where
  | emptySettings : String → Err
  | attrError : Err
deriving DecidableEq

/-- A field value of a Parameters tree: an opaque leaf, a nested
Parameters instance (its ordered field list), or a Settings list. -/
inductive PVal where
  | leaf : Nat → PVal
  | params : List (String × PVal) → PVal
  | settings : List PVal → PVal

instance : Inhabited PVal := ⟨PVal.leaf 0⟩

/-- The ordered field list of a Parameters instance (vars(self) order). -/
abbrev Fields := List (String × PVal)

/-- isinstance(v, Parameters). -/
def isParams : PVal → Bool
  | .params _ => true
  | _ => false

/-- A field value that get_settings treats as varying: a nested
Parameters instance or a Settings list. -/
def isVarying : PVal → Bool
  | .params _ => true
  | .settings _ => true
  | _ => false

/-- itertools.product over a list of candidate lists: the last list
iterates fastest. -/
def cartProd : List (List α) → List (List α)
  | [] => [[]]
  | l :: ls => l.flatMap (fun x => (cartProd ls).map (x :: ·))

/-- setattr(obj, k, v) on a Parameters instance: rebind the (first,
hence unique in Python) field named k; append if absent. -/
def setField (fs : Fields) (k : String) (v : PVal) : Fields :=
  match fs with
  | [] => [(k, v)]
  | (k0, v0) :: rest => if k0 = k then (k0, v) :: rest else (k0, v0) :: setField rest k v

/-- The inner loop of get_settings for one product tuple: setattr each
varying key to its tuple element. -/
def assignAll (fs : Fields) (kvs : List (String × PVal)) : Fields :=
  kvs.foldl (fun acc kv => setField acc kv.1 kv.2) fs

/-- The output loop of get_settings: the single _setting object
(initially deepcopy(self)) is mutated by each tuple's assignments and a
deep copy of it is recorded; the mutated state carries over to the next
iteration.  In this pure model a deep copy is the value itself. -/
def outLoop (sfs : Fields) (keys : List String) : List (List PVal) → List Fields
  | [] => []
  | t :: ts =>
    let sfs2 := assignAll sfs (keys.zip t)
    sfs2 :: outLoop sfs2 keys ts

mutual

/-- Parameters.get_settings from the source, acting on the ordered field
list of the instance.  Returns the ordered list of fully resolved field
lists, or the first exception raised. -/
def get_settings (fs : Fields) : Except Err (List Fields) :=
  match collectVarying fs with
  | .error e => .error e
  | .ok (keys, vls) => .ok (outLoop fs keys (cartProd vls))
termination_by (sizeOf fs, 1)

/-- The field scan of get_settings: visit fields in declared order,
recording each varying field's key and candidate list (value_lists). -/
def collectVarying : Fields → Except Err (List String × List (List PVal))
  | [] => .ok ([], [])
  | (k, .params sub) :: rest =>
    match get_settings sub with
    | .error e => .error e
    | .ok subs =>
      match collectVarying rest with
      | .error e => .error e
      | .ok (ks, vs) => .ok (k :: ks, subs.map PVal.params :: vs)
  | (k, .settings items) :: rest =>
    if items.length = 0 then .error (.emptySettings k)
    else
      match settingsCandidates items with
      | .error e => .error e
      | .ok cand =>
        match collectVarying rest with
        | .error e => .error e
        | .ok (ks, vs) => .ok (k :: ks, cand :: vs)
  | (_, .leaf _) :: rest => collectVarying rest
termination_by fs => (sizeOf fs, 0)

/-- The candidate list contributed by a non-empty Settings list: if its
FIRST element is a Parameters instance, every element is expanded and the
expansions are concatenated; otherwise the list itself is used verbatim. -/
def settingsCandidates (items : List PVal) : Except Err (List PVal) :=
  match items with
  | .params p :: rest => expandAll (.params p :: rest)
  | _ => .ok items
termination_by (sizeOf items, 1)

/-- The comprehension [s for v in items for s in v.get_settings()]:
calling get_settings on a non-Parameters element raises AttributeError. -/
def expandAll : List PVal → Except Err (List PVal)
  | [] => .ok []
  | .params sub :: rest =>
    match get_settings sub with
    | .error e => .error e
    | .ok subs =>
      match expandAll rest with
      | .error e => .error e
      | .ok r => .ok (subs.map PVal.params ++ r)
  | _ :: _ => .error .attrError
termination_by items => (sizeOf items, 0)

end

/-! ### Python dict equality and well-formedness of nested dicts -/

mutual

/-- Python equality (==) of two values: numbers and lists compare
structurally, dicts compare as unordered key/value maps. -/
def vEq : Val → Val → Bool
  | .vnat a, .vnat b => a = b
  | .vlist a, .vlist b => lEq a b
  | .vmap a, .vmap b => dIncl a b && dKeys b a
  | _, _ => false
termination_by v => (sizeOf v, 1)

/-- Every entry of the first dict has an equal value in the second. -/
def dIncl : Dict → Dict → Bool
  | [], _ => true
  | (k, v) :: rest, b =>
    (match dlookup b k with
     | some w => vEq v w
     | none => false) && dIncl rest b
termination_by d => (sizeOf d, 0)

/-- Every key of the first dict is present in the second. -/
def dKeys : Dict → Dict → Bool
  | [], _ => true
  | (k, _) :: rest, a => (dlookup a k).isSome && dKeys rest a
termination_by d => (sizeOf d, 0)

/-- Elementwise Python equality of two lists. -/
def lEq : List Val → List Val → Bool
  | [], [] => true
  | x :: xs, y :: ys => vEq x y && lEq xs ys
  | _, _ => false
termination_by l => (sizeOf l, 0)

end

mutual

/-- A well-formed nested Python dict whose round trip through
flatten_dict and nest_dict can succeed: keys are unique per level (true
of every Python dict), non-empty, and free of the separator character;
nested dicts are non-empty. -/
def wfD : Dict → Bool
  | [] => true
  | (k, v) :: rest =>
    !k.isEmpty && !(k.contains (Char.ofNat 46)) && (dlookup rest k).isNone
      && wfV v && wfD rest
termination_by d => sizeOf d

/-- Well-formedness of one value: a nested dict must be non-empty and
itself well-formed. -/
def wfV : Val → Bool
  | .vmap m => !m.isEmpty && wfD m
  | _ => true
termination_by v => sizeOf v

end

/-! ### The id-instrumented expansion model

To state what deep copying buys (claim about shared mutable
sub-structure), HVal repeats the Parameters tree with an object id on
every node.  copy.deepcopy allocates fresh objects, modelled by threading
a counter of fresh ids; two trees share mutable sub-structure iff their
id sets intersect. -/

/-- A Parameters-tree value carrying object identities: each constructor
holds the node's object id first. -/
inductive HVal where
  | leaf : Nat → Nat → HVal
  | params : Nat → List (String × HVal) → HVal
  | settings : Nat → List HVal → HVal

instance : Inhabited HVal := ⟨HVal.leaf 0 0⟩

/-- Ordered field list of an id-carrying Parameters instance. -/
abbrev HFields := List (String × HVal)

mutual

/-- All object ids occurring in a value. -/
def ids : HVal → List Nat
  | .leaf i _ => [i]
  | .params i fs => i :: idsF fs
  | .settings i xs => i :: idsL xs
termination_by v => sizeOf v

/-- All object ids occurring in a field list. -/
def idsF : HFields → List Nat
  | [] => []
  | (_, v) :: rest => ids v ++ idsF rest
termination_by fs => sizeOf fs

/-- All object ids occurring in a list of values. -/
def idsL : List HVal → List Nat
  | [] => []
  | v :: rest => ids v ++ idsL rest
termination_by l => sizeOf l

end

mutual

/-- copy.deepcopy: rebuild the value with entirely fresh object ids,
threading the fresh-id counter. -/
def deepcopy (c : Nat) : HVal → HVal × Nat
  | .leaf _ p => (.leaf c p, c + 1)
  | .params _ fs =>
    let r := deepcopyF (c + 1) fs
    (.params c r.1, r.2)
  | .settings _ xs =>
    let r := deepcopyL (c + 1) xs
    (.settings c r.1, r.2)
termination_by v => sizeOf v

/-- deepcopy of a field list. -/
def deepcopyF (c : Nat) : HFields → HFields × Nat
  | [] => ([], c)
  | (k, v) :: rest =>
    let r1 := deepcopy c v
    let r2 := deepcopyF r1.2 rest
    ((k, r1.1) :: r2.1, r2.2)
termination_by fs => sizeOf fs

/-- deepcopy of a list of values. -/
def deepcopyL (c : Nat) : List HVal → List HVal × Nat
  | [] => ([], c)
  | v :: rest =>
    let r1 := deepcopy c v
    let r2 := deepcopyL r1.2 rest
    (r1.1 :: r2.1, r2.2)
termination_by l => sizeOf l

end

/-- setattr on an id-carrying Parameters instance (rebinds the field; the
instance keeps its identity). -/
def setFieldH (fs : HFields) (k : String) (v : HVal) : HFields :=
  match fs with
  | [] => [(k, v)]
  | (k0, v0) :: rest => if k0 = k then (k0, v) :: rest else (k0, v0) :: setFieldH rest k v

/-- setattr of each varying key to its tuple element. -/
def assignAllH (fs : HFields) (kvs : List (String × HVal)) : HFields :=
  kvs.foldl (fun acc kv => setFieldH acc kv.1 kv.2) fs

/-- The output loop of get_settings in the instrumented model: mutate the
single _setting object (id sid) per tuple and record deepcopy(_setting),
threading the fresh-id counter. -/
def outLoopH (c : Nat) (sid : Nat) (sfs : HFields) (keys : List String) :
    List (List HVal) → List HVal × Nat
  | [] => ([], c)
  | t :: ts =>
    let sfs2 := assignAllH sfs (keys.zip t)
    let r := deepcopy c (.params sid sfs2)
    let rec2 := outLoopH r.2 sid sfs2 keys ts
    (r.1 :: rec2.1, rec2.2)

mutual

/-- Parameters.get_settings in the id-instrumented model.  The shape of
the computation is exactly that of get_settings; in addition every
deepcopy allocates fresh ids from the counter c.  _setting =
deepcopy(self) is inlined as the params case of deepcopy: the copy is
.params c1 (deepcopyF (c1 + 1) fs).1. -/
def get_settingsH (c : Nat) (fs : HFields) : Except Err (List HVal × Nat) :=
  match collectVaryingH c fs with
  | .error e => .error e
  | .ok (keys, vls, c1) =>
    let r := deepcopyF (c1 + 1) fs
    .ok (outLoopH r.2 c1 r.1 keys (cartProd vls))
termination_by (sizeOf fs, 1)

/-- The field scan of get_settings, instrumented. -/
def collectVaryingH (c : Nat) : HFields → Except Err (List String × List (List HVal) × Nat)
  | [] => .ok ([], [], c)
  | (k, .params _ sub) :: rest =>
    match get_settingsH c sub with
    | .error e => .error e
    | .ok (subs, c1) =>
      match collectVaryingH c1 rest with
      | .error e => .error e
      | .ok (ks, vs, c2) => .ok (k :: ks, subs :: vs, c2)
  | (k, .settings _ items) :: rest =>
    if items.length = 0 then .error (.emptySettings k)
    else
      match settingsCandidatesH c items with
      | .error e => .error e
      | .ok (cand, c1) =>
        match collectVaryingH c1 rest with
        | .error e => .error e
        | .ok (ks, vs, c2) => .ok (k :: ks, cand :: vs, c2)
  | (_, .leaf _ _) :: rest => collectVaryingH c rest
termination_by fs => (sizeOf fs, 0)

/-- Candidate list of a non-empty Settings list, instrumented. -/
def settingsCandidatesH (c : Nat) (items : List HVal) : Except Err (List HVal × Nat) :=
  match items with
  | .params pid sub :: rest => expandAllH c (.params pid sub :: rest)
  | _ => .ok (items, c)
termination_by (sizeOf items, 1)

/-- The element-expansion comprehension, instrumented. -/
def expandAllH (c : Nat) : List HVal → Except Err (List HVal × Nat)
  | [] => .ok ([], c)
  | .params _ sub :: rest =>
    match get_settingsH c sub with
    | .error e => .error e
    | .ok (subs, c1) =>
      match expandAllH c1 rest with
      | .error e => .error e
      | .ok (r, c2) => .ok (subs ++ r, c2)
  | _ :: _ => .error .attrError
termination_by items => (sizeOf items, 0)

end

/-! ### Specification-side helpers referred to by the theorems -/

/-- The entrywise rewrite that the grid_search pass of to_flattened_dict
performs: a key ending with the string "grid_search" loses its last
sep-segment and its value is wrapped as a one-entry grid_search dict;
any other entry is kept unchanged. -/
def gridRewrite (sep : Str) (kv : Str × Val) : Str × Val :=
  if (str "grid_search").isSuffixOf kv.1 then
    (List.intercalate sep (splitAll sep kv.1).dropLast, Val.vmap [(str "grid_search", kv.2)])
  else kv

/-- Depth-first list of (segment path, leaf value) pairs of a nested dict:
exactly the leaves flatten_dict emits, in emission order. -/
def leaves : Dict → List (List Str × Val)
  | [] => []
  | (k, .vmap m) :: rest => (leaves m).map (fun pv => (k :: pv.1, pv.2)) ++ leaves rest
  | (k, v) :: rest => ([k], v) :: leaves rest
termination_by d => sizeOf d
decreasing_by
  all_goals (simp; try omega)

/-- Join a list of key segments with the default period separator. -/
def joinPath (p : List Str) : Str := List.intercalate dotSep p

/-- Folding the nest_dict walker directly over segment paths (what
nestFold does after each key has been split back into its segments). -/
def pathFold : List (List Str × Val) → Dict → Except Unit Dict
  | [], out => .ok out
  | (p, v) :: rest, out =>
    match nest_go p v out with
    | .error e => .error e
    | .ok out2 => pathFold rest out2

/-- Names of the fields of a Parameters instance, in declared order. -/
def namesP (fs : Fields) : List String := fs.map Prod.fst

/-- getattr on a Parameters instance: the (unique) field named k. -/
def plookup (fs : Fields) (k : String) : Option PVal :=
  match fs with
  | [] => none
  | (k0, v) :: rest => if k0 = k then some v else plookup rest k

/-! ### Basic lemmas on the dict operations -/

theorem keysD_cons (k : Str) (v : Val) (d : Dict) : keysD ((k, v) :: d) = k :: keysD d := rfl

theorem dlookup_none_iff (d : Dict) (k : Str) : dlookup d k = none ↔ k ∉ keysD d := by
  induction d with
  | nil => simp [dlookup, keysD]
  | cons kv rest ih =>
    obtain ⟨k0, v⟩ := kv
    by_cases h : k0 = k
    · subst h
      simp [dlookup, keysD_cons]
    · simp only [dlookup, if_neg h, keysD_cons, List.mem_cons]
      constructor
      · intro h1 h2
        rcases h2 with h2 | h2
        · exact h h2.symm
        · exact (ih.mp h1) h2
      · intro h2
        exact ih.mpr (fun hm => h2 (Or.inr hm))

theorem dset_fresh (d : Dict) (k : Str) (v : Val) (h : k ∉ keysD d) :
    dset d k v = d ++ [(k, v)] := by
  induction d with
  | nil => simp [dset]
  | cons kv rest ih =>
    obtain ⟨k0, v0⟩ := kv
    rw [keysD_cons, List.mem_cons] at h
    push_neg at h
    have hne : ¬ (k0 = k) := fun he => h.1 he.symm
    simp only [dset, if_neg hne, List.cons_append, List.cons.injEq, true_and]
    exact ih h.2

theorem keysD_append (a b : Dict) : keysD (a ++ b) = keysD a ++ keysD b := by
  simp [keysD]

theorem dupdate_cons (a : Dict) (k : Str) (v : Val) (b : Dict) :
    dupdate a ((k, v) :: b) = dupdate (dset a k v) b := by
  simp [dupdate]

theorem dupdate_fresh (b : Dict) : ∀ (a : Dict),
    (∀ x ∈ keysD b, x ∉ keysD a) → (keysD b).Nodup →
    dupdate a b = a ++ b := by
  induction b with
  | nil => intro a _ _; simp [dupdate]
  | cons kv rest ih =>
    intro a hfresh hnd
    obtain ⟨k, v⟩ := kv
    rw [keysD_cons] at hfresh hnd
    rw [dupdate_cons]
    rw [dset_fresh a k v (hfresh k (by simp))]
    rw [ih (a ++ [(k, v)]) ?hf ?hn]
    · simp
    case hf =>
      intro x hx
      rw [keysD_append]
      rw [List.mem_append]
      push_neg
      refine ⟨hfresh x (by simp [hx]), ?_⟩
      simp only [keysD, List.map_cons, List.map_nil, List.mem_singleton]
      intro hxk
      subst hxk
      exact (List.nodup_cons.mp hnd).1 hx
    case hn => exact (List.nodup_cons.mp hnd).2

theorem gridLoop_cons (sep : Str) (acc : Dict) (k : Str) (v : Val) (rest : Dict) :
    gridLoop sep acc ((k, v) :: rest)
      = gridLoop sep (dset acc (gridRewrite sep (k, v)).1 (gridRewrite sep (k, v)).2) rest := by
  by_cases hs : (str "grid_search").isSuffixOf k <;> simp [gridLoop, gridRewrite, hs]

theorem gridLoop_append (sep : Str) : ∀ (fl acc : Dict),
    (∀ x ∈ fl.map (fun kv => (gridRewrite sep kv).1), x ∉ keysD acc) →
    (fl.map (fun kv => (gridRewrite sep kv).1)).Nodup →
    gridLoop sep acc fl = acc ++ fl.map (gridRewrite sep) := by
  intro fl
  induction fl with
  | nil => intro acc _ _; simp [gridLoop]
  | cons kv rest ih =>
    intro acc hfresh hnd
    obtain ⟨k, v⟩ := kv
    rw [List.map_cons, List.nodup_cons] at hnd
    rw [gridLoop_cons]
    rw [dset_fresh _ _ _ (hfresh _ (by simp))]
    have hf : ∀ x ∈ rest.map (fun kv => (gridRewrite sep kv).1),
        x ∉ keysD (acc ++ [((gridRewrite sep (k, v)).1, (gridRewrite sep (k, v)).2)]) := by
      intro x hx
      rw [keysD_append, List.mem_append]
      push_neg
      refine ⟨hfresh x (by simp only [List.map_cons, List.mem_cons]; right; exact hx), ?_⟩
      simp only [keysD, List.map_cons, List.map_nil, List.mem_singleton]
      intro hxk
      rw [hxk] at hx
      exact hnd.1 hx
    rw [ih _ hf hnd.2]
    simp

/-- C8 (code bug, evaluated at the failing input): for the tree
a ↦ (b ↦ 1) and separator "/", to_flattened_dict joins the path with the
DEFAULT period (producing the key "a.b"), because the source calls
flatten_dict without passing sep; the claim says the separator argument is
the one used to join path keys, which (second conjunct, flatten_dict
called with "/") would produce "a/b". -/
theorem claim8_sep_ignored :
    to_flattened_dict [(str "a", Val.vmap [(str "b", Val.vnat 1)])] (str "/")
      = [(str "a.b", Val.vnat 1)]
    ∧ flatten_dict [(str "a", Val.vmap [(str "b", Val.vnat 1)])] (str "/") []
      = [(str "a/b", Val.vnat 1)] := by
  constructor <;>
    simp [to_flattened_dict, gridLoop, flatten_dict, flattenLoop, dupdate, dset, str, dotSep,
      List.isSuffixOf, List.isPrefixOf]

/-- C9 counterexample: the flat dict with keys "a.b" (first) and "a"
(second) implies conflicting mapping/leaf types at path "a", yet nest_dict
succeeds and silently overwrites the sub-mapping with the leaf 1 —
refuting the claim that such a conflict always fails with an error rather
than silently overwriting. -/
theorem claim9_cex :
    nest_dict [(str "a.b", Val.vnat 2), (str "a", Val.vnat 1)] dotSep
      = .ok [(str "a", Val.vnat 1)] := by
  simp [nest_dict, nestFold, nestSegs, nest_go, splitFirst, splitAll, dset, dlookup, str, dotSep,
    List.isPrefixOf]

/-- C9 (amended): a conflicting leaf/mapping assignment aborts nesting
with an error only in one order — when the path already holds a non-dict
value and a longer key must descend through it (first conjunct; the
TypeError of the source); a single-segment key simply overwrites whatever
the path holds (second conjunct), so a leaf key processed after a
mapping-implying key silently wins, and in the opposite order (third
conjunct, concrete) the whole nesting aborts with the error. -/
theorem claim9_amended :
    (∀ (segs : List Str) (s1 s2 : Str) (v w : Val) (out : Dict),
        dlookup out s1 = some w → (∀ m, w ≠ Val.vmap m) →
        nest_go (s1 :: s2 :: segs) v out = .error ())
    ∧ (∀ (s : Str) (v : Val) (out : Dict), nest_go [s] v out = .ok (dset out s v))
    ∧ nest_dict [(str "a", Val.vnat 1), (str "a.b", Val.vnat 2)] dotSep = .error () := by
  refine ⟨?_, ?_, ?_⟩
  · intro segs s1 s2 v w out hl hw
    cases w with
    | vmap m => exact absurd rfl (hw m)
    | vnat n => simp [nest_go, hl]
    | vlist l => simp [nest_go, hl]
  · intro s v out; rfl
  · simp [nest_dict, nestFold, nestSegs, nest_go, splitFirst, splitAll, dset, dlookup, str,
      dotSep, List.isPrefixOf]

/-- Witness for the amended C9 at concrete inputs. -/
theorem claim9_amended_wit :
    nest_go [str "a", str "b"] (Val.vnat 2) [(str "a", Val.vnat 1)] = .error ()
    ∧ nest_go [str "a"] (Val.vnat 7) [] = .ok (dset [] (str "a") (Val.vnat 7)) := by
  constructor
  · exact claim9_amended.1 [] (str "a") (str "b") (Val.vnat 2) (Val.vnat 1) _
      (by simp [dlookup]) (by intro m h; cases h)
  · exact claim9_amended.2.1 (str "a") (Val.vnat 7) []

/-- C2 counterexample: the nested mapping a ↦ \x7b\x7d (an empty
sub-mapping; it has no flattened keys at all, so no key ends in
grid_search) flattens to the empty dict, which nests back to the empty
dict; by Python dict equality (vEq) that differs from the original, so
nest_dict(flatten_dict(m)) == m fails as stated. -/
theorem claim2_cex :
    flatten_dict [(str "a", Val.vmap [])] dotSep [] = []
    ∧ nest_dict (flatten_dict [(str "a", Val.vmap [])] dotSep []) dotSep = .ok []
    ∧ vEq (Val.vmap []) (Val.vmap [(str "a", Val.vmap [])]) = false := by
  refine ⟨?_, ?_, ?_⟩
  · simp [flatten_dict, flattenLoop, dupdate]
  · simp [flatten_dict, flattenLoop, dupdate, nest_dict, nestFold]
  · simp [vEq, dIncl, dKeys, dlookup]

/-- C3 counterexample: the flat key "foo_grid_search" is a single
segment not equal to "grid_search", so by the claim it must not be
rewritten; but the source tests endswith, so to_flattened_dict rewrites
it to the empty key mapped to the wrapped value. -/
theorem claim3_cex :
    to_flattened_dict [(str "foo_grid_search", Val.vnat 5)] dotSep
      = [([], Val.vmap [(str "grid_search", Val.vnat 5)])]
    ∧ splitAll dotSep (str "foo_grid_search") = [str "foo_grid_search"]
    ∧ str "foo_grid_search" ≠ str "grid_search" := by
  refine ⟨?_, ?_, ?_⟩
  · simp [to_flattened_dict, gridLoop, flatten_dict, flattenLoop, dset, str, dotSep,
      List.isSuffixOf, List.isPrefixOf, splitAll, splitFirst, List.intercalate, List.intersperse]
  · simp [splitAll, splitFirst, str, dotSep, List.isPrefixOf]
  · decide

/-- C3 (amended): the grid_search pass of to_flattened_dict rewrites
exactly those flattened keys that END WITH the string "grid_search"
(suffix test, not last-segment test), replacing each by the key with its
last sep-segment dropped, mapped to the one-entry grid_search dict
(first conjunct, for rewritten keys that stay distinct); the claim's
example a ↦ (grid_search ↦ [1,2,3]) still flattens to the key "a" bound
to the untouched sweep spec (second conjunct). -/
theorem claim3_amended :
    (∀ (d : Dict) (sep : Str),
        ((flatten_dict d dotSep []).map (fun kv => (gridRewrite sep kv).1)).Nodup →
        to_flattened_dict d sep = (flatten_dict d dotSep []).map (gridRewrite sep))
    ∧ to_flattened_dict
        [(str "a", Val.vmap [(str "grid_search", Val.vlist [Val.vnat 1, Val.vnat 2, Val.vnat 3])])]
        dotSep
      = [(str "a", Val.vmap [(str "grid_search", Val.vlist [Val.vnat 1, Val.vnat 2, Val.vnat 3])])] := by
  constructor
  · intro d sep hnd
    unfold to_flattened_dict
    rw [gridLoop_append sep _ [] (by simp [keysD]) hnd]
    simp
  · simp [to_flattened_dict, gridLoop, flatten_dict, flattenLoop, dupdate, dset, str, dotSep,
      List.isSuffixOf, List.isPrefixOf, splitAll, splitFirst, List.intercalate]

/-- Witness for the amended C3 at a concrete input. -/
theorem claim3_amended_wit :
    to_flattened_dict [(str "a", Val.vmap [(str "b", Val.vnat 1)])] dotSep
      = (flatten_dict [(str "a", Val.vmap [(str "b", Val.vnat 1)])] dotSep []).map
          (gridRewrite dotSep) :=
  claim3_amended.1 _ dotSep (by
    simp [flatten_dict, flattenLoop, dupdate, dset, str, dotSep, gridRewrite, List.isSuffixOf,
      List.isPrefixOf])

theorem flatMapConsLength (m : List (List PVal)) : ∀ l : List PVal,
    (l.flatMap (fun x => m.map (x :: ·))).length = l.length * m.length := by
  intro l
  induction l with
  | nil => simp
  | cons a l ih => simp [ih, Nat.succ_mul, Nat.add_comm]

theorem cartProd_length : ∀ ls : List (List PVal),
    (cartProd ls).length = (ls.map List.length).prod := by
  intro ls
  induction ls with
  | nil => simp [cartProd]
  | cons l ls ih =>
    simp only [cartProd]
    rw [flatMapConsLength]
    simp [ih]

theorem outLoop_length (keys : List String) : ∀ (ts : List (List PVal)) (sfs : Fields),
    (outLoop sfs keys ts).length = ts.length := by
  intro ts
  induction ts with
  | nil => intro sfs; simp [outLoop]
  | cons t ts ih => intro sfs; simp [outLoop, ih]

theorem collect_fixed : ∀ fs : Fields, (∀ kv ∈ fs, isVarying kv.2 = false) →
    collectVarying fs = .ok ([], []) := by
  intro fs
  induction fs with
  | nil => intro _; simp [collectVarying]
  | cons kv rest ih =>
    intro h
    obtain ⟨k, v⟩ := kv
    cases v with
    | leaf n =>
      simp only [collectVarying]
      exact ih (fun kv hm => h kv (List.mem_cons_of_mem _ hm))
    | params sub => exact absurd (h (k, .params sub) (List.mem_cons_self _ _)) (by simp [isVarying])
    | settings items =>
      exact absurd (h (k, .settings items) (List.mem_cons_self _ _)) (by simp [isVarying])

theorem collect_append_empty : ∀ (pre : Fields) (ks : List String) (vs : List (List PVal))
    (k : String) (post : Fields),
    collectVarying pre = .ok (ks, vs) →
    collectVarying (pre ++ (k, PVal.settings []) :: post) = .error (.emptySettings k) := by
  intro pre
  induction pre with
  | nil => intro ks vs k post _; simp [collectVarying]
  | cons kv pre2 ih =>
    intro ks vs k post h
    obtain ⟨k0, v0⟩ := kv
    cases v0 with
    | leaf n =>
      simp only [collectVarying, List.cons_append] at h ⊢
      exact ih _ _ k post h
    | params sub =>
      simp only [collectVarying, List.cons_append] at h ⊢
      cases hg : get_settings sub with
      | error e =>
        rw [hg] at h
        dsimp only at h
        exact Except.noConfusion h
      | ok subs =>
        rw [hg] at h
        dsimp only at h ⊢
        cases hc : collectVarying pre2 with
        | error e =>
          rw [hc] at h
          dsimp only at h
          exact Except.noConfusion h
        | ok p =>
          obtain ⟨ks2, vs2⟩ := p
          rw [ih ks2 vs2 k post hc]
    | settings items =>
      simp only [collectVarying, List.cons_append] at h ⊢
      by_cases hl : items.length = 0
      · rw [if_pos hl] at h
        exact Except.noConfusion h
      · rw [if_neg hl] at h ⊢
        cases hs : settingsCandidates items with
        | error e =>
          rw [hs] at h
          dsimp only at h
          exact Except.noConfusion h
        | ok cand =>
          rw [hs] at h
          dsimp only at h ⊢
          cases hc : collectVarying pre2 with
          | error e =>
            rw [hc] at h
            dsimp only at h
            exact Except.noConfusion h
          | ok p =>
            obtain ⟨ks2, vs2⟩ := p
            rw [ih ks2 vs2 k post hc]

/-- C1: the number of outputs of get_settings equals the product of the
candidate-list lengths of the varying fields (the value_lists collected by
the field scan); and a tree with no varying field (no Parameters-valued
and no Settings-valued field) expands to exactly one output, equal to the
(deep copy of the) original tree. -/
theorem claim1_expansion_cardinality :
    (∀ (fs : Fields) (keys : List String) (vls : List (List PVal)),
        collectVarying fs = .ok (keys, vls) →
        ∃ outs, get_settings fs = .ok outs ∧ outs.length = (vls.map List.length).prod)
    ∧ (∀ fs : Fields, (∀ kv ∈ fs, isVarying kv.2 = false) → get_settings fs = .ok [fs]) := by
  constructor
  · intro fs keys vls hc
    refine ⟨outLoop fs keys (cartProd vls), ?_, ?_⟩
    · simp [get_settings, hc]
    · rw [outLoop_length, cartProd_length]
  · intro fs h
    have hc := collect_fixed fs h
    simp [get_settings, hc, cartProd, outLoop, assignAll]

/-- Witness for C1 at concrete inputs. -/
theorem claim1_expansion_cardinality_wit :
    (∃ outs, get_settings [("lr", PVal.settings [PVal.leaf 1, PVal.leaf 2]), ("m", PVal.leaf 9)]
        = .ok outs
      ∧ outs.length = ([[PVal.leaf 1, PVal.leaf 2]].map List.length).prod)
    ∧ get_settings [("m", PVal.leaf 9)] = .ok [[("m", PVal.leaf 9)]] := by
  constructor
  · exact claim1_expansion_cardinality.1 _ ["lr"] [[PVal.leaf 1, PVal.leaf 2]]
      (by simp [collectVarying, settingsCandidates])
  · exact claim1_expansion_cardinality.2 [("m", PVal.leaf 9)] (by simp [isVarying])

theorem collect_append_err : ∀ (pre : Fields) (ks : List String) (vs : List (List PVal))
    (rest : Fields) (e : Err),
    collectVarying pre = .ok (ks, vs) → collectVarying rest = .error e →
    collectVarying (pre ++ rest) = .error e := by
  intro pre
  induction pre with
  | nil =>
    intro ks vs rest e _ hrest
    simpa using hrest
  | cons kv pre2 ih =>
    intro ks vs rest e h hrest
    obtain ⟨k0, v0⟩ := kv
    cases v0 with
    | leaf n =>
      simp only [collectVarying, List.cons_append] at h ⊢
      exact ih _ _ rest e h hrest
    | params sub =>
      simp only [collectVarying, List.cons_append] at h ⊢
      cases hg : get_settings sub with
      | error e2 =>
        rw [hg] at h
        dsimp only at h
        exact Except.noConfusion h
      | ok subs =>
        rw [hg] at h
        dsimp only at h ⊢
        cases hc : collectVarying pre2 with
        | error e2 =>
          rw [hc] at h
          dsimp only at h
          exact Except.noConfusion h
        | ok p =>
          obtain ⟨ks2, vs2⟩ := p
          rw [ih ks2 vs2 rest e hc hrest]
    | settings items =>
      simp only [collectVarying, List.cons_append] at h ⊢
      by_cases hl : items.length = 0
      · rw [if_pos hl] at h
        exact Except.noConfusion h
      · rw [if_neg hl] at h ⊢
        cases hs : settingsCandidates items with
        | error e2 =>
          rw [hs] at h
          dsimp only at h
          exact Except.noConfusion h
        | ok cand =>
          rw [hs] at h
          dsimp only at h ⊢
          cases hc : collectVarying pre2 with
          | error e2 =>
            rw [hc] at h
            dsimp only at h
            exact Except.noConfusion h
          | ok p =>
            obtain ⟨ks2, vs2⟩ := p
            rw [ih ks2 vs2 rest e hc hrest]

theorem collect_params_err (k0 : String) (sub : Fields) (rest : Fields) (e : Err)
    (hg : get_settings sub = .error e) :
    collectVarying ((k0, PVal.params sub) :: rest) = .error e := by
  simp only [collectVarying]
  rw [hg]

theorem collect_settings_err (k0 : String) (items : List PVal) (rest : Fields) (e : Err)
    (hne : items ≠ []) (hs : settingsCandidates items = .error e) :
    collectVarying ((k0, PVal.settings items) :: rest) = .error e := by
  have hl : ¬ (items.length = 0) := by simpa using hne
  simp only [collectVarying, if_neg hl]
  rw [hs]

theorem settingsCandidates_params_head (s : Fields) (rest : List PVal) :
    settingsCandidates (PVal.params s :: rest) = expandAll (PVal.params s :: rest) := by
  simp [settingsCandidates]

theorem expandAll_err : ∀ (ipre : List PVal) (sub : Fields) (ipost : List PVal) (e : Err),
    (∀ v ∈ ipre, ∃ s o, v = PVal.params s ∧ get_settings s = .ok o) →
    get_settings sub = .error e →
    expandAll (ipre ++ PVal.params sub :: ipost) = .error e := by
  intro ipre
  induction ipre with
  | nil =>
    intro sub ipost e _ hg
    simp [expandAll, hg]
  | cons v ipre2 ih =>
    intro sub ipost e hpre hg
    obtain ⟨s, o, rfl, ho⟩ := hpre v (List.mem_cons_self _ _)
    have := ih sub ipost e (fun w hw => hpre w (List.mem_cons_of_mem _ hw)) hg
    simp [expandAll, ho, this]

/-- C4: a settings-list field with zero elements makes get_settings fail
with the empty-settings error naming that field, and the failure is
fatal: the whole expansion aborts with the error and no partial output
list is produced.  This holds for an empty settings list that is a
direct field of the tree (first conjunct), a field of a recursively
expanded Parameters-valued sub-tree (second conjunct), and a field of a
Parameters element of a settings list (third conjunct) — in each case
the fields scanned before the failure point scan successfully, and the
error propagates unchanged to the top-level call. -/
theorem claim4_empty_settings_error :
    (∀ (pre : Fields) (k : String) (post : Fields) (r : List String × List (List PVal)),
        collectVarying pre = .ok r →
        get_settings (pre ++ (k, PVal.settings []) :: post) = .error (.emptySettings k))
    ∧ (∀ (pre : Fields) (k0 : String) (spre : Fields) (k : String) (spost post : Fields)
        (r r2 : List String × List (List PVal)),
        collectVarying pre = .ok r →
        collectVarying spre = .ok r2 →
        get_settings (pre ++ (k0, PVal.params (spre ++ (k, PVal.settings []) :: spost)) :: post)
          = .error (.emptySettings k))
    ∧ (∀ (pre : Fields) (k0 : String) (ipre : List PVal) (spre : Fields) (k : String)
        (spost : Fields) (ipost : List PVal) (post : Fields)
        (r r2 : List String × List (List PVal)),
        collectVarying pre = .ok r →
        (∀ v ∈ ipre, ∃ s o, v = PVal.params s ∧ get_settings s = .ok o) →
        collectVarying spre = .ok r2 →
        get_settings (pre
            ++ (k0, PVal.settings
                (ipre ++ PVal.params (spre ++ (k, PVal.settings []) :: spost) :: ipost)) :: post)
          = .error (.emptySettings k)) := by
  have hmain : ∀ (pre : Fields) (k : String) (post : Fields)
      (r : List String × List (List PVal)),
      collectVarying pre = .ok r →
      get_settings (pre ++ (k, PVal.settings []) :: post) = .error (.emptySettings k) := by
    intro pre k post r h
    have := collect_append_empty pre r.1 r.2 k post (by rw [h])
    simp [get_settings, this]
  refine ⟨hmain, ?_, ?_⟩
  · intro pre k0 spre k spost post r r2 hpre hspre
    have hsub : get_settings (spre ++ (k, PVal.settings []) :: spost)
        = .error (.emptySettings k) := hmain spre k spost r2 hspre
    have hcol : collectVarying
        ((k0, PVal.params (spre ++ (k, PVal.settings []) :: spost)) :: post)
        = .error (.emptySettings k) := collect_params_err k0 _ post _ hsub
    have hcol2 := collect_append_err pre r.1 r.2 _ _ (by rw [hpre]) hcol
    simp [get_settings, hcol2]
  · intro pre k0 ipre spre k spost ipost post r r2 hpre hipre hspre
    have hsub : get_settings (spre ++ (k, PVal.settings []) :: spost)
        = .error (.emptySettings k) := hmain spre k spost r2 hspre
    have hexp : expandAll
        (ipre ++ PVal.params (spre ++ (k, PVal.settings []) :: spost) :: ipost)
        = .error (.emptySettings k) := expandAll_err ipre _ ipost _ hipre hsub
    have hsc : settingsCandidates
        (ipre ++ PVal.params (spre ++ (k, PVal.settings []) :: spost) :: ipost)
        = .error (.emptySettings k) := by
      cases ipre with
      | nil =>
        rw [List.nil_append] at hexp ⊢
        rw [settingsCandidates_params_head]
        exact hexp
      | cons v ipre2 =>
        obtain ⟨s, o, rfl, _⟩ := hipre v (List.mem_cons_self _ _)
        rw [List.cons_append] at hexp ⊢
        rw [settingsCandidates_params_head]
        exact hexp
    have hcol : collectVarying
        ((k0, PVal.settings
          (ipre ++ PVal.params (spre ++ (k, PVal.settings []) :: spost) :: ipost)) :: post)
        = .error (.emptySettings k) :=
      collect_settings_err k0 _ post _ (by simp) hsc
    have hcol2 := collect_append_err pre r.1 r.2 _ _ (by rw [hpre]) hcol
    simp [get_settings, hcol2]

/-- Witness for C4 at concrete inputs: an empty settings list as a direct
field, inside a Parameters-valued field, and inside a Parameters element
of a settings list, each aborting the whole expansion with the error
naming the offending field "b". -/
theorem claim4_empty_settings_error_wit :
    get_settings [("a", PVal.leaf 3), ("b", PVal.settings []), ("c", PVal.leaf 4)]
      = .error (.emptySettings "b")
    ∧ get_settings [("a", PVal.leaf 3), ("n", PVal.params [("b", PVal.settings [])])]
      = .error (.emptySettings "b")
    ∧ get_settings [("x", PVal.settings [PVal.params [("p", PVal.leaf 1)],
        PVal.params [("b", PVal.settings [])]])]
      = .error (.emptySettings "b") := by
  refine ⟨?_, ?_, ?_⟩
  · exact claim4_empty_settings_error.1 [("a", PVal.leaf 3)] "b" [("c", PVal.leaf 4)] ([], [])
      (by simp [collectVarying])
  · exact claim4_empty_settings_error.2.1 [("a", PVal.leaf 3)] "n" [] "b" [] [] ([], []) ([], [])
      (by simp [collectVarying]) (by simp [collectVarying])
  · exact claim4_empty_settings_error.2.2 [] "x" [PVal.params [("p", PVal.leaf 1)]] [] "b" [] []
      [] ([], []) ([], [])
      (by simp [collectVarying])
      (by
        intro v hv
        simp at hv
        subst hv
        exact ⟨[("p", PVal.leaf 1)], [[("p", PVal.leaf 1)]], rfl,
          by simp [get_settings, collectVarying, cartProd, outLoop, assignAll]⟩)
      (by simp [collectVarying])

theorem expandAll_concat : ∀ (items : List PVal) (outs : List (List Fields)),
    List.Forall₂ (fun v o => ∃ sub, v = PVal.params sub ∧ get_settings sub = .ok o) items outs →
    expandAll items = .ok ((outs.map (fun o => o.map PVal.params)).flatten) := by
  intro items outs h
  induction h with
  | nil => simp [expandAll]
  | cons hvo _ ih =>
    obtain ⟨sub, rfl, hg⟩ := hvo
    simp [expandAll, hg, ih]

/-- C6: the candidate list of a non-empty settings list whose elements are
Parameters instances is the concatenation, in list order, of the full
expansion of every element; a settings list whose first element is not a
Parameters instance contributes itself, unchanged; and that candidate list
is exactly what the field scan records for the field. -/
theorem claim6_settings_candidates :
    (∀ (items : List PVal) (outs : List (List Fields)),
        List.Forall₂ (fun v o => ∃ sub, v = PVal.params sub ∧ get_settings sub = .ok o)
          items outs →
        items ≠ [] →
        settingsCandidates items = .ok ((outs.map (fun o => o.map PVal.params)).flatten))
    ∧ (∀ (x : PVal) (rest : List PVal), isParams x = false →
        settingsCandidates (x :: rest) = .ok (x :: rest))
    ∧ (∀ (k : String) (items : List PVal) (rest : Fields) (cand : List PVal)
        (ks : List String) (vs : List (List PVal)),
        items ≠ [] →
        settingsCandidates items = .ok cand →
        collectVarying rest = .ok (ks, vs) →
        collectVarying ((k, PVal.settings items) :: rest) = .ok (k :: ks, cand :: vs)) := by
  refine ⟨?_, ?_, ?_⟩
  · intro items outs h hne
    cases h with
    | nil => exact absurd rfl hne
    | @cons v o l1 l2 hvo htail =>
      obtain ⟨sub, rfl, hg⟩ := hvo
      have hsc : settingsCandidates (PVal.params sub :: l1)
          = expandAll (PVal.params sub :: l1) := by
        simp [settingsCandidates]
      rw [hsc]
      exact expandAll_concat _ _ (List.Forall₂.cons ⟨sub, rfl, hg⟩ htail)
  · intro x rest hx
    cases x with
    | leaf n => simp [settingsCandidates]
    | params sub => simp [isParams] at hx
    | settings l => simp [settingsCandidates]
  · intro k items rest cand ks vs hne hs hc
    have hl : ¬ (items.length = 0) := by simpa using hne
    simp [collectVarying, if_neg hl, hs, hc]

/-- Witness for C6 at concrete inputs. -/
theorem claim6_settings_candidates_wit :
    settingsCandidates [PVal.params [("x", PVal.leaf 1)], PVal.params [("x", PVal.leaf 2)]]
      = .ok (([[[("x", PVal.leaf 1)]], [[("x", PVal.leaf 2)]]].map
          (fun o => o.map PVal.params)).flatten)
    ∧ settingsCandidates [PVal.leaf 5, PVal.params [("x", PVal.leaf 1)]]
      = .ok [PVal.leaf 5, PVal.params [("x", PVal.leaf 1)]]
    ∧ collectVarying [("a", PVal.settings [PVal.leaf 1, PVal.leaf 2])]
      = .ok (["a"], [[PVal.leaf 1, PVal.leaf 2]]) := by
  refine ⟨?_, ?_, ?_⟩
  · refine claim6_settings_candidates.1 _ _ ?_ (by simp)
    refine List.Forall₂.cons ⟨_, rfl, ?_⟩ (List.Forall₂.cons ⟨_, rfl, ?_⟩ List.Forall₂.nil)
    · simp [get_settings, collectVarying, cartProd, outLoop, assignAll]
    · simp [get_settings, collectVarying, cartProd, outLoop, assignAll]
  · exact claim6_settings_candidates.2.1 (PVal.leaf 5) [PVal.params [("x", PVal.leaf 1)]]
      (by simp [isParams])
  · exact claim6_settings_candidates.2.2 "a" [PVal.leaf 1, PVal.leaf 2] [] _ [] []
      (by simp) (by simp [settingsCandidates]) (by simp [collectVarying])

/-- C10: which branch a non-empty settings list takes is decided solely by
its first element: a non-Parameters first element makes the list be used
verbatim (whatever the remaining elements are), a Parameters first element
routes the whole list through element-wise expansion; in the latter case a
non-Parameters element later in the list raises AttributeError (after the
Parameters elements before it expanded successfully). -/
theorem claim10_first_element_branch :
    (∀ (x : PVal) (rest : List PVal), isParams x = false →
        settingsCandidates (x :: rest) = .ok (x :: rest))
    ∧ (∀ (sub : Fields) (rest : List PVal),
        settingsCandidates (PVal.params sub :: rest) = expandAll (PVal.params sub :: rest))
    ∧ (∀ (pre : List PVal) (x : PVal) (post : List PVal),
        (∀ v ∈ pre, ∃ sub outs, v = PVal.params sub ∧ get_settings sub = .ok outs) →
        isParams x = false →
        expandAll (pre ++ x :: post) = .error .attrError) := by
  refine ⟨?_, ?_, ?_⟩
  · intro x rest hx
    cases x with
    | leaf n => simp [settingsCandidates]
    | params sub => simp [isParams] at hx
    | settings l => simp [settingsCandidates]
  · intro sub rest
    simp [settingsCandidates]
  · intro pre
    induction pre with
    | nil =>
      intro x post _ hx
      cases x with
      | leaf n => simp [expandAll]
      | params sub => simp [isParams] at hx
      | settings l => simp [expandAll]
    | cons v pre2 ih =>
      intro x post hpre hx
      obtain ⟨sub, outs, rfl, hg⟩ := hpre v (List.mem_cons_self _ _)
      have := ih x post (fun w hw => hpre w (List.mem_cons_of_mem _ hw)) hx
      simp [expandAll, hg, this]

/-- Witness for C10 at concrete inputs. -/
theorem claim10_first_element_branch_wit :
    settingsCandidates [PVal.leaf 5, PVal.params [("x", PVal.leaf 1)]]
      = .ok [PVal.leaf 5, PVal.params [("x", PVal.leaf 1)]]
    ∧ expandAll [PVal.params [("x", PVal.leaf 1)], PVal.leaf 5] = .error .attrError := by
  constructor
  · exact claim10_first_element_branch.1 (PVal.leaf 5) [PVal.params [("x", PVal.leaf 1)]]
      (by simp [isParams])
  · exact claim10_first_element_branch.2.2 [PVal.params [("x", PVal.leaf 1)]] (PVal.leaf 5) []
      (by
        intro v hv
        simp at hv
        subst hv
        exact ⟨[("x", PVal.leaf 1)], [[("x", PVal.leaf 1)]], rfl,
          by simp [get_settings, collectVarying, cartProd, outLoop, assignAll]⟩)
      (by simp [isParams])

theorem plookup_none_iff (fs : Fields) (k : String) :
    plookup fs k = none ↔ k ∉ namesP fs := by
  induction fs with
  | nil => simp [plookup, namesP]
  | cons kv rest ih =>
    obtain ⟨k0, v⟩ := kv
    by_cases h : k0 = k
    · subst h
      simp [plookup, namesP]
    · simp only [plookup, if_neg h, namesP, List.map_cons, List.mem_cons]
      constructor
      · intro h1 h2
        rcases h2 with h2 | h2
        · exact h h2.symm
        · exact (ih.mp h1) h2
      · intro h2
        exact ih.mpr (fun hm => h2 (Or.inr hm))

theorem mapNoop (k : String) (v : PVal) : ∀ rest : Fields, k ∉ namesP rest →
    rest.map (fun kv => (kv.1, if kv.1 = k then v else kv.2)) = rest := by
  intro rest
  induction rest with
  | nil => intro _; simp
  | cons kv rest ih =>
    intro h
    obtain ⟨k0, v0⟩ := kv
    simp only [namesP, List.map_cons, List.mem_cons] at h
    push_neg at h
    have hne : ¬ (k0 = k) := fun he => h.1 he.symm
    simp only [List.map_cons, if_neg hne]
    rw [ih (by simpa [namesP] using h.2)]

theorem setField_eq_map (k : String) (v : PVal) : ∀ s : Fields,
    (namesP s).Nodup → k ∈ namesP s →
    setField s k v = s.map (fun kv => (kv.1, if kv.1 = k then v else kv.2)) := by
  intro s
  induction s with
  | nil => intro _ h; simp [namesP] at h
  | cons kv rest ih =>
    intro hnd hk
    obtain ⟨k0, v0⟩ := kv
    simp only [namesP, List.map_cons, List.nodup_cons] at hnd
    by_cases h : k0 = k
    · subst h
      simp [setField, mapNoop k0 v rest (by simpa [namesP] using hnd.1)]
    · simp only [namesP, List.map_cons, List.mem_cons] at hk
      rcases hk with hk | hk
      · exact absurd hk.symm h
      · simp only [setField, if_neg h, List.map_cons, if_neg h]
        rw [ih (by simpa [namesP] using hnd.2) (by simpa [namesP] using hk)]

theorem namesP_preserved (s : Fields) (g : String × PVal → String × PVal)
    (h : ∀ kv, (g kv).1 = kv.1) : namesP (s.map g) = namesP s := by
  simp only [namesP, List.map_map]
  exact List.map_congr_left (fun a _ => h a)

theorem assignAll_cons (s : Fields) (k : String) (v : PVal) (rest : List (String × PVal)) :
    assignAll s ((k, v) :: rest) = assignAll (setField s k v) rest := by
  simp [assignAll]

theorem assignAll_eq_map : ∀ (kvs : List (String × PVal)) (s : Fields),
    (namesP s).Nodup → (kvs.map Prod.fst).Nodup →
    (∀ x ∈ kvs.map Prod.fst, x ∈ namesP s) →
    assignAll s kvs = s.map (fun kv => (kv.1, (plookup kvs kv.1).getD kv.2)) := by
  intro kvs
  induction kvs with
  | nil =>
    intro s _ _ _
    simp [assignAll, plookup]
  | cons kv rest ih =>
    intro s hnds hndk hsub
    obtain ⟨k, v⟩ := kv
    rw [List.map_cons, List.nodup_cons] at hndk
    rw [assignAll_cons]
    rw [ih (setField s k v) ?nd hndk.2 ?sub]
    · rw [setField_eq_map k v s hnds (hsub k (by simp))]
      rw [List.map_map]
      apply List.map_congr_left
      intro kv2 _
      obtain ⟨k0, v0⟩ := kv2
      simp only [Function.comp]
      by_cases h : k0 = k
      · subst h
        simp only [if_pos rfl, plookup, if_pos rfl]
        rw [(plookup_none_iff rest k0).mpr (by
          intro hm
          exact hndk.1 (by simpa [namesP] using hm))]
        simp
      · have hne2 : ¬ (k = k0) := fun he => h he.symm
        simp [plookup, if_neg h, if_neg hne2]
    case nd =>
      rw [setField_eq_map k v s hnds (hsub k (by simp))]
      rw [namesP_preserved s (fun kv => (kv.1, if kv.1 = k then v else kv.2)) (fun kv => rfl)]
      exact hnds
    case sub =>
      intro x hx
      rw [setField_eq_map k v s hnds (hsub k (by simp))]
      rw [namesP_preserved s (fun kv => (kv.1, if kv.1 = k then v else kv.2)) (fun kv => rfl)]
      exact hsub x (by simp [hx])

theorem assignAll_absorb (s : Fields) (kv1 kv2 : List (String × PVal))
    (hnds : (namesP s).Nodup)
    (hnd1 : (kv1.map Prod.fst).Nodup)
    (hsub1 : ∀ x ∈ kv1.map Prod.fst, x ∈ namesP s)
    (hkeys : kv1.map Prod.fst = kv2.map Prod.fst) :
    assignAll (assignAll s kv1) kv2 = assignAll s kv2 := by
  have hnd2 : (kv2.map Prod.fst).Nodup := hkeys ▸ hnd1
  have hsub2 : ∀ x ∈ kv2.map Prod.fst, x ∈ namesP s := fun x hx => hsub1 x (hkeys ▸ hx)
  rw [assignAll_eq_map kv1 s hnds hnd1 hsub1]
  have hp : namesP (s.map (fun kv => (kv.1, (plookup kv1 kv.1).getD kv.2))) = namesP s :=
    namesP_preserved s _ (fun kv => rfl)
  rw [assignAll_eq_map kv2 (s.map (fun kv => (kv.1, (plookup kv1 kv.1).getD kv.2)))
    (by rw [hp]; exact hnds) hnd2 (fun x hx => hp ▸ hsub2 x hx)]
  rw [assignAll_eq_map kv2 s hnds hnd2 hsub2]
  rw [List.map_map]
  apply List.map_congr_left
  intro kv0 _
  obtain ⟨k0, v0⟩ := kv0
  simp only [Function.comp]
  by_cases hmem : k0 ∈ kv1.map Prod.fst
  · obtain ⟨w, hw⟩ : ∃ w, plookup kv2 k0 = some w := by
      cases hw : plookup kv2 k0 with
      | none =>
        exact absurd (show k0 ∈ namesP kv2 from by rw [namesP, ← hkeys]; exact hmem)
          ((plookup_none_iff kv2 k0).mp hw)
      | some w => exact ⟨w, rfl⟩
    simp [hw]
  · rw [(plookup_none_iff kv1 k0).mpr (by simpa [namesP] using hmem)]
    simp

theorem outLoop_eq_map (keys : List String) : ∀ (ts : List (List PVal)) (s : Fields),
    (namesP s).Nodup → keys.Nodup → (∀ x ∈ keys, x ∈ namesP s) →
    (∀ t ∈ ts, t.length = keys.length) →
    outLoop s keys ts = ts.map (fun t => assignAll s (keys.zip t)) := by
  intro ts
  induction ts with
  | nil => intro s _ _ _ _; simp [outLoop]
  | cons t ts ih =>
    intro s hnds hndk hsub hlen
    have hzip1 : (keys.zip t).map Prod.fst = keys :=
      List.map_fst_zip keys t (le_of_eq (hlen t (by simp)).symm)
    have hns : namesP (assignAll s (keys.zip t)) = namesP s := by
      rw [assignAll_eq_map (keys.zip t) s hnds (by rw [hzip1]; exact hndk)
        (by intro x hx; rw [hzip1] at hx; exact hsub x hx)]
      exact namesP_preserved s _ (fun kv => rfl)
    simp only [outLoop, List.map_cons]
    congr 1
    rw [ih (assignAll s (keys.zip t)) (by rw [hns]; exact hnds) hndk
      (fun x hx => hns ▸ hsub x hx) (fun t2 ht2 => hlen t2 (by simp [ht2]))]
    apply List.map_congr_left
    intro t2 ht2
    exact assignAll_absorb s (keys.zip t) (keys.zip t2) hnds
      (by rw [hzip1]; exact hndk)
      (by intro x hx; rw [hzip1] at hx; exact hsub x hx)
      (by
        rw [hzip1, List.map_fst_zip keys t2 (le_of_eq (hlen t2 (by simp [ht2])).symm)])

theorem collect_keys_shape : ∀ (fs : Fields) (keys : List String) (vls : List (List PVal)),
    collectVarying fs = .ok (keys, vls) →
    keys.Sublist (namesP fs) ∧ keys.length = vls.length := by
  intro fs
  induction fs with
  | nil =>
    intro keys vls h
    simp [collectVarying] at h
    obtain ⟨rfl, rfl⟩ := h
    simp
  | cons kv rest ih =>
    intro keys vls h
    obtain ⟨k, v⟩ := kv
    cases v with
    | leaf n =>
      simp only [collectVarying] at h
      obtain ⟨hsl, hlen⟩ := ih keys vls h
      exact ⟨hsl.cons _, hlen⟩
    | params sub =>
      simp only [collectVarying] at h
      cases hg : get_settings sub with
      | error e =>
        rw [hg] at h
        dsimp only at h
        exact Except.noConfusion h
      | ok subs =>
        rw [hg] at h
        dsimp only at h
        cases hc : collectVarying rest with
        | error e =>
          rw [hc] at h
          dsimp only at h
          exact Except.noConfusion h
        | ok p =>
          obtain ⟨ks, vs⟩ := p
          rw [hc] at h
          dsimp only at h
          injection h with h
          injection h with h1 h2
          subst h1
          subst h2
          obtain ⟨hsl, hlen⟩ := ih ks vs hc
          exact ⟨hsl.cons₂ _, by simp [hlen]⟩
    | settings items =>
      simp only [collectVarying] at h
      by_cases hl : items.length = 0
      · rw [if_pos hl] at h
        exact Except.noConfusion h
      · rw [if_neg hl] at h
        cases hs : settingsCandidates items with
        | error e =>
          rw [hs] at h
          dsimp only at h
          exact Except.noConfusion h
        | ok cand =>
          rw [hs] at h
          dsimp only at h
          cases hc : collectVarying rest with
          | error e =>
            rw [hc] at h
            dsimp only at h
            exact Except.noConfusion h
          | ok p =>
            obtain ⟨ks, vs⟩ := p
            rw [hc] at h
            dsimp only at h
            injection h with h
            injection h with h1 h2
            subst h1
            subst h2
            obtain ⟨hsl, hlen⟩ := ih ks vs hc
            exact ⟨hsl.cons₂ _, by simp [hlen]⟩

theorem cartProd_mem_length : ∀ (ls : List (List PVal)) (t : List PVal),
    t ∈ cartProd ls → t.length = ls.length := by
  intro ls
  induction ls with
  | nil => intro t ht; simp [cartProd] at ht; simp [ht]
  | cons l ls ih =>
    intro t ht
    simp only [cartProd, List.mem_flatMap, List.mem_map] at ht
    obtain ⟨x, _, t2, ht2, rfl⟩ := ht
    simp [ih t2 ht2]

/-- C5: the outputs of get_settings are exactly the cartesian product of
the candidate lists, enumerated in the declared varying-field order with
the LAST varying field iterating fastest, each tuple assigned onto the
tree; appending a further candidate list makes it the innermost
(fastest) loop of the enumeration. -/
theorem claim5_expansion_order :
    (∀ (fs : Fields) (keys : List String) (vls : List (List PVal)) (outs : List Fields),
        (namesP fs).Nodup →
        collectVarying fs = .ok (keys, vls) →
        get_settings fs = .ok outs →
        outs = (cartProd vls).map (fun t => assignAll fs (keys.zip t)))
    ∧ (∀ (front : List (List PVal)) (lst : List PVal),
        cartProd (front ++ [lst])
          = (cartProd front).flatMap (fun t => lst.map (fun x => t ++ [x]))) := by
  constructor
  · intro fs keys vls outs hnd hc hg
    have hout : get_settings fs = .ok (outLoop fs keys (cartProd vls)) := by
      simp [get_settings, hc]
    rw [hout] at hg
    injection hg with hg
    rw [← hg]
    obtain ⟨hsl, hlen⟩ := collect_keys_shape fs keys vls hc
    exact outLoop_eq_map keys (cartProd vls) fs hnd (hnd.sublist hsl)
      (fun x hx => hsl.subset hx)
      (fun t ht => by rw [cartProd_mem_length vls t ht, hlen])
  · intro front lst
    induction front with
    | nil =>
      simp only [List.nil_append, cartProd]
      induction lst with
      | nil => simp
      | cons x lst ihx => simp_all [cartProd]
    | cons a front ih =>
      simp only [List.cons_append, cartProd, List.append_eq]
      simp only [ih]
      simp [List.map_flatMap, List.flatMap_map, List.flatMap_assoc, List.map_map,
        Function.comp_def, List.cons_append]

/-- Witness for C5 at concrete inputs: a two-field sweep enumerates the
second field fastest. -/
theorem claim5_expansion_order_wit :
    [[("a", PVal.leaf 1), ("b", PVal.leaf 3)], [("a", PVal.leaf 1), ("b", PVal.leaf 4)],
     [("a", PVal.leaf 2), ("b", PVal.leaf 3)], [("a", PVal.leaf 2), ("b", PVal.leaf 4)]]
      = (cartProd [[PVal.leaf 1, PVal.leaf 2], [PVal.leaf 3, PVal.leaf 4]]).map
          (fun t => assignAll
            [("a", PVal.settings [PVal.leaf 1, PVal.leaf 2]),
             ("b", PVal.settings [PVal.leaf 3, PVal.leaf 4])] (["a", "b"].zip t))
    ∧ cartProd ([[PVal.leaf 1]] ++ [[PVal.leaf 3, PVal.leaf 4]])
      = (cartProd [[PVal.leaf 1]]).flatMap
          (fun t => [PVal.leaf 3, PVal.leaf 4].map (fun x => t ++ [x])) := by
  constructor
  · exact claim5_expansion_order.1
      [("a", PVal.settings [PVal.leaf 1, PVal.leaf 2]),
       ("b", PVal.settings [PVal.leaf 3, PVal.leaf 4])]
      ["a", "b"] [[PVal.leaf 1, PVal.leaf 2], [PVal.leaf 3, PVal.leaf 4]] _
      (by simp [namesP])
      (by simp [collectVarying, settingsCandidates])
      (by simp [get_settings, collectVarying, settingsCandidates, cartProd, outLoop, assignAll,
        setField])
  · exact claim5_expansion_order.2 [[PVal.leaf 1]] [PVal.leaf 3, PVal.leaf 4]

theorem splitFirst_no_dot : ∀ k : Str, ('.' : Char) ∉ k → splitFirst dotSep k = (k, none) := by
  intro k
  induction k with
  | nil => intro _; simp [splitFirst]
  | cons c cs ih =>
    intro h
    rw [List.mem_cons] at h
    push_neg at h
    have hpre : dotSep.isPrefixOf (c :: cs) = false := by
      simp [dotSep, List.isPrefixOf]
      exact h.1
    simp only [splitFirst, hpre, Bool.false_eq_true, if_false]
    rw [ih h.2]

theorem splitFirst_dot_append : ∀ (a : Str) (rest : Str), ('.' : Char) ∉ a →
    splitFirst dotSep (a ++ '.' :: rest) = (a, some rest) := by
  intro a
  induction a with
  | nil =>
    intro rest _
    simp [splitFirst, dotSep, List.isPrefixOf]
  | cons c a2 ih =>
    intro rest h
    rw [List.mem_cons] at h
    push_neg at h
    have hpre : dotSep.isPrefixOf (c :: (a2 ++ '.' :: rest)) = false := by
      simp [dotSep, List.isPrefixOf]
      exact h.1
    simp only [List.cons_append, splitFirst, hpre, Bool.false_eq_true, if_false,
      List.append_eq]
    rw [ih rest h.2]

theorem splitAll_step (sep k pre rest : Str) (hsep : sep ≠ [])
    (h : splitFirst sep k = (pre, some rest)) :
    splitAll sep k = pre :: splitAll sep rest := by
  rw [splitAll, dif_neg hsep]
  split
  next pre2 hs =>
    rw [h] at hs
    cases hs
  next pre2 rest2 hs =>
    rw [h] at hs
    injection hs with h1 h2
    injection h2 with h2
    rw [h1, h2]

theorem splitAll_no_dot (k : Str) (h : ('.' : Char) ∉ k) : splitAll dotSep k = [k] := by
  rw [splitAll]
  rw [dif_neg (by simp [dotSep])]
  rw [splitFirst_no_dot k h]

theorem joinPath_nil : joinPath [] = [] := by
  simp [joinPath, List.intercalate]

theorem joinPath_single (a : Str) : joinPath [a] = a := by
  simp [joinPath, List.intercalate, List.intersperse]

theorem joinPath_cons (a b : Str) (l : List Str) :
    joinPath (a :: b :: l) = a ++ '.' :: joinPath (b :: l) := by
  simp [joinPath, List.intercalate, List.intersperse, dotSep]

theorem splitAll_joinPath : ∀ (p : List Str), p ≠ [] → (∀ s ∈ p, ('.' : Char) ∉ s) →
    splitAll dotSep (joinPath p) = p := by
  intro p
  induction p with
  | nil => intro h _; exact absurd rfl h
  | cons a p2 ih =>
    intro _ hok
    cases p2 with
    | nil =>
      rw [joinPath_single]
      exact splitAll_no_dot a (hok a (by simp))
    | cons b l =>
      rw [joinPath_cons]
      rw [splitAll_step dotSep _ a (joinPath (b :: l)) (by simp [dotSep])
        (splitFirst_dot_append a (joinPath (b :: l)) (hok a (by simp)))]
      rw [ih (by simp) (fun s hs => hok s (by simp [hs]))]

theorem joinPath_ne_nil (a : Str) (l : List Str) (h : a ≠ []) : joinPath (a :: l) ≠ [] := by
  cases l with
  | nil => rw [joinPath_single]; exact h
  | cons b l2 =>
    rw [joinPath_cons]
    simp [h]

theorem joinPath_append_single (k : Str) : ∀ (ps : List Str), ps ≠ [] →
    joinPath (ps ++ [k]) = joinPath ps ++ '.' :: k := by
  intro ps
  induction ps with
  | nil => intro h; exact absurd rfl h
  | cons a ps2 ih =>
    intro _
    cases ps2 with
    | nil =>
      simp only [List.cons_append, List.nil_append]
      rw [joinPath_cons, joinPath_single, joinPath_single]
    | cons b l =>
      have ih2 := ih (by simp)
      simp only [List.cons_append] at ih2 ⊢
      rw [joinPath_cons, ih2, joinPath_cons]
      simp

theorem joinPath_injective : ∀ (p1 p2 : List Str), p1 ≠ [] → p2 ≠ [] →
    (∀ s ∈ p1, ('.' : Char) ∉ s) → (∀ s ∈ p2, ('.' : Char) ∉ s) →
    joinPath p1 = joinPath p2 → p1 = p2 := by
  intro p1 p2 h1 h2 hok1 hok2 heq
  have := splitAll_joinPath p1 h1 hok1
  rw [heq] at this
  rw [splitAll_joinPath p2 h2 hok2] at this
  exact this.symm

theorem leaves_nil : leaves [] = [] := by simp [leaves]

theorem leaves_cons_map (k : Str) (m rest : Dict) :
    leaves ((k, Val.vmap m) :: rest)
      = (leaves m).map (fun pv => (k :: pv.1, pv.2)) ++ leaves rest := by
  simp [leaves]

theorem leaves_cons_leaf (k : Str) (v : Val) (rest : Dict) (h : ∀ m, v ≠ Val.vmap m) :
    leaves ((k, v) :: rest) = ([k], v) :: leaves rest := by
  cases v with
  | vnat n => simp [leaves]
  | vlist l => simp [leaves]
  | vmap m => exact absurd rfl (h m)

theorem wfD_cons (k : Str) (v : Val) (rest : Dict) :
    wfD ((k, v) :: rest) = true ↔
      (k ≠ [] ∧ ('.' : Char) ∉ k ∧ k ∉ keysD rest ∧ wfV v = true ∧ wfD rest = true) := by
  simp only [wfD, Bool.and_eq_true, Bool.not_eq_true']
  constructor
  · intro h
    refine ⟨by simpa using h.1.1.1.1, ?_, ?_, h.1.2, h.2⟩
    · intro hc
      have := h.1.1.1.2
      simp [List.contains, List.elem_eq_mem, hc] at this
    · exact (dlookup_none_iff rest k).mp (by
        have := h.1.1.2
        simpa [Option.isNone_iff_eq_none] using this)
  · intro h
    refine ⟨⟨⟨⟨by simpa using h.1, ?_⟩, ?_⟩, h.2.2.2.1⟩, h.2.2.2.2⟩
    · simp [List.contains, List.elem_eq_mem, h.2.1]
    · simp [Option.isNone_iff_eq_none, (dlookup_none_iff rest k).mpr h.2.2.1]

theorem wfV_map (m : Dict) : wfV (Val.vmap m) = true ↔ (m ≠ [] ∧ wfD m = true) := by
  simp [wfV]

theorem leaves_path_ok : ∀ m : Dict, wfD m = true →
    ∀ pv ∈ leaves m, pv.1 ≠ [] ∧ ∀ s ∈ pv.1, s ≠ [] ∧ ('.' : Char) ∉ s := by
  intro m
  induction m using leaves.induct with
  | case1 => intro _ pv hpv; rw [leaves_nil] at hpv; cases hpv
  | case2 k sub rest ihsub ihrest =>
    intro hwf pv hpv
    obtain ⟨hk1, hk2, _, hv, hr⟩ := (wfD_cons k (Val.vmap sub) rest).mp hwf
    obtain ⟨hsub1, hsub2⟩ := (wfV_map sub).mp hv
    rw [leaves_cons_map] at hpv
    rw [List.mem_append] at hpv
    rcases hpv with hpv | hpv
    · rw [List.mem_map] at hpv
      obtain ⟨pv0, hpv0, rfl⟩ := hpv
      obtain ⟨hne, hok⟩ := ihsub hsub2 pv0 hpv0
      refine ⟨by simp, ?_⟩
      intro s hs
      rcases List.mem_cons.mp hs with rfl | hs
      · exact ⟨hk1, hk2⟩
      · exact hok s hs
    · exact ihrest hr pv hpv
  | case3 k v rest hnv ihrest =>
    intro hwf pv hpv
    obtain ⟨hk1, hk2, _, _, hr⟩ := (wfD_cons k v rest).mp hwf
    rw [leaves_cons_leaf k v rest (fun m hm => hnv m hm)] at hpv
    rcases List.mem_cons.mp hpv with rfl | hpv
    · exact ⟨by simp, by
        intro s hs
        rcases List.mem_cons.mp hs with rfl | hs
        · exact ⟨hk1, hk2⟩
        · cases hs⟩
    · exact ihrest hr pv hpv

theorem leaves_ne_nil : ∀ m : Dict, wfD m = true → m ≠ [] → leaves m ≠ [] := by
  intro m
  induction m using leaves.induct with
  | case1 => intro _ hm; exact absurd rfl hm
  | case2 k sub rest ihsub _ =>
    intro hwf _
    obtain ⟨_, _, _, hv, _⟩ := (wfD_cons k (Val.vmap sub) rest).mp hwf
    obtain ⟨hsub1, hsub2⟩ := (wfV_map sub).mp hv
    rw [leaves_cons_map]
    have := ihsub hsub2 hsub1
    intro hcon
    rw [List.append_eq_nil] at hcon
    exact this (List.map_eq_nil_iff.mp hcon.1)
  | case3 k v rest hnv _ =>
    intro _ _
    rw [leaves_cons_leaf k v rest (fun m hm => hnv m hm)]
    simp

theorem leaves_head : ∀ (m : Dict) (pv : List Str × Val), pv ∈ leaves m →
    ∃ k p2, pv.1 = k :: p2 ∧ k ∈ keysD m := by
  intro m
  induction m using leaves.induct with
  | case1 => intro pv hpv; rw [leaves_nil] at hpv; cases hpv
  | case2 k sub rest _ ihrest =>
    intro pv hpv
    rw [leaves_cons_map, List.mem_append] at hpv
    rcases hpv with hpv | hpv
    · rw [List.mem_map] at hpv
      obtain ⟨pv0, _, rfl⟩ := hpv
      exact ⟨k, pv0.1, rfl, by simp [keysD]⟩
    · obtain ⟨k2, p2, hp, hk⟩ := ihrest pv hpv
      exact ⟨k2, p2, hp, by simp [keysD]; right; simpa [keysD] using hk⟩
  | case3 k v rest hnv ihrest =>
    intro pv hpv
    rw [leaves_cons_leaf k v rest (fun m hm => hnv m hm)] at hpv
    rcases List.mem_cons.mp hpv with rfl | hpv
    · exact ⟨k, [], rfl, by simp [keysD]⟩
    · obtain ⟨k2, p2, hp, hk⟩ := ihrest pv hpv
      exact ⟨k2, p2, hp, by simp [keysD]; right; simpa [keysD] using hk⟩

theorem leaves_paths_nodup : ∀ m : Dict, wfD m = true →
    ((leaves m).map Prod.fst).Nodup := by
  intro m
  induction m using leaves.induct with
  | case1 => intro _; rw [leaves_nil]; simp
  | case2 k sub rest ihsub ihrest =>
    intro hwf
    obtain ⟨_, _, hknr, hv, hr⟩ := (wfD_cons k (Val.vmap sub) rest).mp hwf
    obtain ⟨_, hsub2⟩ := (wfV_map sub).mp hv
    rw [leaves_cons_map, List.map_append, List.map_map]
    apply List.Nodup.append
    · have : (Prod.fst ∘ fun pv : List Str × Val => (k :: pv.1, pv.2))
          = (fun p => k :: p) ∘ Prod.fst := rfl
      rw [this, ← List.map_map]
      exact (ihsub hsub2).map (fun a b hab => by injection hab)
    · exact ihrest hr
    · intro x hx1 hx2
      rw [List.mem_map] at hx1 hx2
      obtain ⟨pv1, _, rfl⟩ := hx1
      obtain ⟨pv2, hpv2, heq⟩ := hx2
      obtain ⟨k2, p2, hp, hk2⟩ := leaves_head rest pv2 hpv2
      rw [hp] at heq
      simp only [Function.comp] at heq
      injection heq with he1 _
      exact hknr (he1 ▸ hk2)
  | case3 k v rest hnv ihrest =>
    intro hwf
    obtain ⟨_, _, hknr, _, hr⟩ := (wfD_cons k v rest).mp hwf
    rw [leaves_cons_leaf k v rest (fun m hm => hnv m hm), List.map_cons]
    rw [List.nodup_cons]
    refine ⟨?_, ihrest hr⟩
    intro hmem
    rw [List.mem_map] at hmem
    obtain ⟨pv2, hpv2, heq⟩ := hmem
    obtain ⟨k2, p2, hp, hk2⟩ := leaves_head rest pv2 hpv2
    rw [hp] at heq
    injection heq with he1 he2
    subst he1
    exact hknr hk2

theorem flatKeys_nodup (m : Dict) (ps : List Str) (hwf : wfD m = true)
    (hps : ∀ s ∈ ps, s ≠ [] ∧ ('.' : Char) ∉ s) :
    ((leaves m).map (fun pv => joinPath (ps ++ pv.1))).Nodup := by
  have hform : (leaves m).map (fun pv => joinPath (ps ++ pv.1))
      = ((leaves m).map Prod.fst).map (fun p => joinPath (ps ++ p)) := by
    rw [List.map_map]
    rfl
  rw [hform]
  apply List.Nodup.map_on ?inj (leaves_paths_nodup m hwf)
  case inj =>
    intro x hx y hy heq
    rw [List.mem_map] at hx hy
    obtain ⟨pvx, hpvx, rfl⟩ := hx
    obtain ⟨pvy, hpvy, rfl⟩ := hy
    obtain ⟨hnex, hokx⟩ := leaves_path_ok m hwf pvx hpvx
    obtain ⟨hney, hoky⟩ := leaves_path_ok m hwf pvy hpvy
    have hinj := joinPath_injective (ps ++ pvx.1) (ps ++ pvy.1)
      (by simp [hnex]) (by simp [hney])
      (by
        intro s hs
        rcases List.mem_append.mp hs with hs | hs
        · exact (hps s hs).2
        · exact (hokx s hs).2)
      (by
        intro s hs
        rcases List.mem_append.mp hs with hs | hs
        · exact (hps s hs).2
        · exact (hoky s hs).2)
      heq
    exact List.append_cancel_left hinj

theorem flattenLoop_cons_map (parent k : Str) (acc : Dict) (sub rest : Dict) :
    flattenLoop dotSep parent acc ((k, Val.vmap sub) :: rest)
      = flattenLoop dotSep parent
          (dupdate acc (flattenLoop dotSep (if parent = [] then k else parent ++ dotSep ++ k) [] sub))
          rest := by
  simp [flattenLoop]

theorem flattenLoop_cons_leaf (parent k : Str) (acc : Dict) (v : Val) (rest : Dict)
    (h : ∀ m, v ≠ Val.vmap m) :
    flattenLoop dotSep parent acc ((k, v) :: rest)
      = flattenLoop dotSep parent
          (dset acc (if parent = [] then k else parent ++ dotSep ++ k) v) rest := by
  cases v with
  | vnat n => simp [flattenLoop]
  | vlist l => simp [flattenLoop]
  | vmap m => exact absurd rfl (h m)

theorem joinPath_parent (ps : List Str) (k : Str) (hps : ∀ s ∈ ps, s ≠ []) :
    (if joinPath ps = [] then k else joinPath ps ++ dotSep ++ k) = joinPath (ps ++ [k]) := by
  cases ps with
  | nil =>
    rw [joinPath_nil]
    simp [joinPath_single]
  | cons a ps2 =>
    rw [if_neg (joinPath_ne_nil a ps2 (hps a (by simp)))]
    rw [joinPath_append_single k (a :: ps2) (by simp)]
    simp [dotSep]

theorem keysD_mapped (l : List (List Str × Val)) (f : List Str × Val → Str) :
    keysD (l.map (fun pv => (f pv, pv.2))) = l.map f := by
  simp [keysD]

theorem flattenLoop_leaves : ∀ m : Dict, wfD m = true → ∀ (ps : List Str) (acc : Dict),
    (∀ s ∈ ps, s ≠ [] ∧ ('.' : Char) ∉ s) →
    (∀ x ∈ (leaves m).map (fun pv => joinPath (ps ++ pv.1)), x ∉ keysD acc) →
    flattenLoop dotSep (joinPath ps) acc m
      = acc ++ (leaves m).map (fun pv => (joinPath (ps ++ pv.1), pv.2)) := by
  intro m
  induction m using leaves.induct with
  | case1 =>
    intro _ ps acc _ _
    rw [leaves_nil]
    simp [flattenLoop]
  | case2 k sub rest ihsub ihrest =>
    intro hwf ps acc hps hfr
    obtain ⟨hk1, hk2, hknr, hv, hr⟩ := (wfD_cons k (Val.vmap sub) rest).mp hwf
    obtain ⟨hsub1, hsub2⟩ := (wfV_map sub).mp hv
    have hps2 : ∀ s ∈ ps ++ [k], s ≠ [] ∧ ('.' : Char) ∉ s := by
      intro s hs
      rcases List.mem_append.mp hs with hs | hs
      · exact hps s hs
      · rw [List.mem_singleton] at hs
        subst hs
        exact ⟨hk1, hk2⟩
    rw [flattenLoop_cons_map]
    rw [joinPath_parent ps k (fun s hs => (hps s hs).1)]
    rw [ihsub hsub2 (ps ++ [k]) [] hps2 (by intro x _ hx; simp [keysD] at hx)]
    rw [List.nil_append]
    have hkeysub : keysD ((leaves sub).map (fun pv => (joinPath (ps ++ [k] ++ pv.1), pv.2)))
        = (leaves sub).map (fun pv => joinPath (ps ++ k :: pv.1)) := by
      rw [keysD_mapped (leaves sub) (fun pv => joinPath (ps ++ [k] ++ pv.1))]
      apply List.map_congr_left
      intro pv _
      rw [List.append_assoc]
      rfl
    have hsplit : (leaves ((k, Val.vmap sub) :: rest)).map (fun pv => joinPath (ps ++ pv.1))
        = (leaves sub).map (fun pv => joinPath (ps ++ k :: pv.1))
          ++ (leaves rest).map (fun pv => joinPath (ps ++ pv.1)) := by
      rw [leaves_cons_map, List.map_append, List.map_map]
      rfl
    have hnd := flatKeys_nodup ((k, Val.vmap sub) :: rest) ps hwf hps
    rw [hsplit] at hnd hfr
    obtain ⟨hnd1, hnd2, hdisj⟩ := List.nodup_append.mp hnd
    rw [dupdate_fresh _ acc ?hf1 ?hn1]
    case hf1 =>
      intro x hx
      rw [hkeysub] at hx
      exact hfr x (List.mem_append_left _ hx)
    case hn1 =>
      rw [hkeysub]
      exact hnd1
    rw [ihrest hr ps _ hps ?hf2]
    case hf2 =>
      intro x hx
      rw [keysD_append, List.mem_append, hkeysub]
      push_neg
      exact ⟨hfr x (List.mem_append_right _ hx), fun hx2 => hdisj hx2 hx⟩
    rw [leaves_cons_map, List.map_append, List.map_map, List.append_assoc]
    refine congrArg₂ (fun a b => a ++ b) rfl (congrArg₂ (fun a b => a ++ b) ?_ rfl)
    apply List.map_congr_left
    intro pv _
    simp [Function.comp, List.append_assoc]
  | case3 k v rest hnv ihrest =>
    intro hwf ps acc hps hfr
    obtain ⟨hk1, hk2, hknr, _, hr⟩ := (wfD_cons k v rest).mp hwf
    have hleav : leaves ((k, v) :: rest) = ([k], v) :: leaves rest :=
      leaves_cons_leaf k v rest (fun m hm => hnv m hm)
    rw [hleav] at hfr
    have hnd := flatKeys_nodup ((k, v) :: rest) ps hwf hps
    rw [hleav, List.map_cons, List.nodup_cons] at hnd
    rw [flattenLoop_cons_leaf _ _ _ _ _ (fun m hm => hnv m hm)]
    rw [joinPath_parent ps k (fun s hs => (hps s hs).1)]
    rw [dset_fresh acc (joinPath (ps ++ [k])) v (hfr _ (by simp))]
    rw [ihrest hr ps _ hps ?hf2]
    case hf2 =>
      intro x hx
      rw [keysD_append, List.mem_append]
      push_neg
      refine ⟨hfr x (by simp [hx]), ?_⟩
      simp only [keysD, List.map_cons, List.map_nil, List.mem_singleton]
      intro hxk
      subst hxk
      exact hnd.1 hx
    rw [hleav, List.map_cons]
    simp

theorem flatten_dict_leaves (m : Dict) (hwf : wfD m = true) :
    flatten_dict m dotSep [] = (leaves m).map (fun pv => (joinPath pv.1, pv.2)) := by
  rw [flatten_dict]
  have := flattenLoop_leaves m hwf [] [] (by intro s hs; cases hs)
    (by intro x _ hx; simp [keysD] at hx)
  rw [joinPath_nil] at this
  rw [this]
  simp

theorem dlookup_append_right (base : Dict) (k : Str) (w : Val) (h : k ∉ keysD base) :
    dlookup (base ++ [(k, w)]) k = some w := by
  induction base with
  | nil => simp [dlookup]
  | cons kv rest ih =>
    obtain ⟨k0, v0⟩ := kv
    rw [keysD_cons, List.mem_cons] at h
    push_neg at h
    rw [List.cons_append]
    rw [show dlookup ((k0, v0) :: (rest ++ [(k, w)])) k
        = if k0 = k then some v0 else dlookup (rest ++ [(k, w)]) k from rfl]
    rw [if_neg (fun he => h.1 he.symm)]
    exact ih h.2

theorem dset_append_right (base : Dict) (k : Str) (w w2 : Val) (h : k ∉ keysD base) :
    dset (base ++ [(k, w)]) k w2 = base ++ [(k, w2)] := by
  induction base with
  | nil => simp [dset]
  | cons kv rest ih =>
    obtain ⟨k0, v0⟩ := kv
    rw [keysD_cons, List.mem_cons] at h
    push_neg at h
    rw [List.cons_append]
    rw [show dset ((k0, v0) :: (rest ++ [(k, w)])) k w2
        = if k0 = k then (k0, w2) :: (rest ++ [(k, w)])
          else (k0, v0) :: dset (rest ++ [(k, w)]) k w2 from rfl]
    rw [if_neg (fun he => h.1 he.symm)]
    rw [ih h.2]
    rfl

theorem pathFold_append : ∀ (A B : List (List Str × Val)) (out out2 : Dict),
    pathFold A out = .ok out2 → pathFold (A ++ B) out = pathFold B out2 := by
  intro A
  induction A with
  | nil =>
    intro B out out2 h
    simp only [pathFold] at h
    injection h with h
    subst h
    simp
  | cons pv A2 ih =>
    intro B out out2 h
    obtain ⟨p, v⟩ := pv
    simp only [pathFold] at h ⊢
    cases hng : nest_go p v out with
    | error e =>
      rw [hng] at h
      exact Except.noConfusion h
    | ok out3 =>
      rw [hng] at h
      exact ih B out3 out2 h

theorem pathFold_lift : ∀ (psl : List (List Str × Val)) (base : Dict) (k : Str) (macc : Dict),
    k ∉ keysD base → (∀ pv ∈ psl, pv.1 ≠ []) →
    pathFold (psl.map (fun pv => (k :: pv.1, pv.2))) (base ++ [(k, Val.vmap macc)])
      = match pathFold psl macc with
        | .error e => .error e
        | .ok m2 => .ok (base ++ [(k, Val.vmap m2)]) := by
  intro psl
  induction psl with
  | nil =>
    intro base k macc _ _
    simp [pathFold]
  | cons pv psl2 ih =>
    intro base k macc hk hne
    obtain ⟨p, v⟩ := pv
    cases hp : p with
    | nil => exact absurd hp (hne (p, v) (List.mem_cons_self _ _))
    | cons s p2 =>
      simp only [List.map_cons, pathFold]
      rw [show nest_go (k :: s :: p2) v (base ++ [(k, Val.vmap macc)])
          = match dlookup (base ++ [(k, Val.vmap macc)]) k with
            | some (.vmap m) =>
              match nest_go (s :: p2) v m with
              | .error e => .error e
              | .ok m2 => .ok (dset (base ++ [(k, Val.vmap macc)]) k (.vmap m2))
            | some _ => .error ()
            | none =>
              match nest_go (s :: p2) v [] with
              | .error e => .error e
              | .ok m2 => .ok (dset (base ++ [(k, Val.vmap macc)]) k (.vmap m2)) from rfl]
      rw [dlookup_append_right base k (Val.vmap macc) hk]
      dsimp only
      cases hng : nest_go (s :: p2) v macc with
      | error e => rfl
      | ok m2 =>
        dsimp only
        rw [dset_append_right base k (Val.vmap macc) (Val.vmap m2) hk]
        rw [ih base k m2 hk (fun pv2 h2 => hne pv2 (by simp [h2]))]

theorem pathFold_leaves : ∀ m : Dict, wfD m = true → ∀ base : Dict,
    (∀ x ∈ keysD m, x ∉ keysD base) →
    pathFold (leaves m) base = .ok (base ++ m) := by
  intro m
  induction m using leaves.induct with
  | case1 =>
    intro _ base _
    rw [leaves_nil]
    simp [pathFold]
  | case2 k sub rest ihsub ihrest =>
    intro hwf base hfr
    obtain ⟨hk1, hk2, hknr, hv, hr⟩ := (wfD_cons k (Val.vmap sub) rest).mp hwf
    obtain ⟨hsub1, hsub2⟩ := (wfV_map sub).mp hv
    have hkbase : k ∉ keysD base := hfr k (by simp [keysD])
    have hsubfold := ihsub hsub2 [] (by intro x _ hx; simp [keysD] at hx)
    rw [List.nil_append] at hsubfold
    cases hls : leaves sub with
    | nil => exact absurd hls (leaves_ne_nil sub hsub2 hsub1)
    | cons pv1 psl2 =>
      obtain ⟨p1, v1⟩ := pv1
      have hp1ne : p1 ≠ [] :=
        (leaves_path_ok sub hsub2 (p1, v1) (by rw [hls]; simp)).1
      rw [hls] at hsubfold
      simp only [pathFold] at hsubfold
      cases hng : nest_go p1 v1 [] with
      | error e =>
        rw [hng] at hsubfold
        exact Except.noConfusion hsubfold
      | ok m1 =>
        rw [hng] at hsubfold
        dsimp only at hsubfold
        cases hp1 : p1 with
        | nil => exact absurd hp1 hp1ne
        | cons s p2 =>
          subst hp1
          have hA : pathFold ((leaves sub).map (fun pv => (k :: pv.1, pv.2))) base
              = .ok (base ++ [(k, Val.vmap sub)]) := by
            rw [hls, List.map_cons]
            simp only [pathFold, nest_go]
            rw [(dlookup_none_iff base k).mpr hkbase]
            dsimp only
            rw [hng]
            dsimp only
            rw [dset_fresh base k (Val.vmap m1) hkbase]
            rw [pathFold_lift psl2 base k m1 hkbase
              (fun pv2 h2 => (leaves_path_ok sub hsub2 pv2 (by rw [hls]; simp [h2])).1)]
            rw [hsubfold]
          rw [leaves_cons_map]
          rw [pathFold_append _ _ base _ hA]
          rw [ihrest hr (base ++ [(k, Val.vmap sub)]) ?hf2]
          · simp
          case hf2 =>
            intro x hx
            rw [keysD_append, List.mem_append]
            push_neg
            refine ⟨hfr x (by simp [keysD]; right; simpa [keysD] using hx), ?_⟩
            simp only [keysD, List.map_cons, List.map_nil, List.mem_singleton]
            intro hxk
            subst hxk
            exact hknr hx
  | case3 k v rest hnv ihrest =>
    intro hwf base hfr
    obtain ⟨hk1, hk2, hknr, _, hr⟩ := (wfD_cons k v rest).mp hwf
    have hkbase : k ∉ keysD base := hfr k (by simp [keysD])
    rw [leaves_cons_leaf k v rest (fun m hm => hnv m hm)]
    simp only [pathFold]
    rw [show nest_go [k] v base = .ok (dset base k v) from rfl]
    rw [dset_fresh base k v hkbase]
    dsimp only
    rw [ihrest hr (base ++ [(k, v)]) ?hf2]
    · simp
    case hf2 =>
      intro x hx
      rw [keysD_append, List.mem_append]
      push_neg
      refine ⟨hfr x (by simp [keysD]; right; simpa [keysD] using hx), ?_⟩
      simp only [keysD, List.map_cons, List.map_nil, List.mem_singleton]
      intro hxk
      subst hxk
      exact hknr hx

theorem splitAll_none (sep k pre : Str) (hsep : sep ≠ [])
    (h : splitFirst sep k = (pre, none)) :
    splitAll sep k = [pre] := by
  rw [splitAll, dif_neg hsep]
  split
  next pre2 hs =>
    rw [h] at hs
    injection hs with h1 _
    rw [h1]
  next pre2 rest2 hs =>
    rw [h] at hs
    cases hs

theorem nestSegs_eq_splitAll (k : Str) : nestSegs dotSep k = splitAll dotSep k := by
  rcases hsf : splitFirst dotSep k with ⟨pre, o⟩
  cases o with
  | none =>
    rw [splitAll_none dotSep k pre (by simp [dotSep]) hsf]
    simp [nestSegs, hsf]
  | some r =>
    rw [splitAll_step dotSep k pre r (by simp [dotSep]) hsf]
    simp [nestSegs, hsf]

theorem nestFold_pathFold : ∀ (L : List (List Str × Val)) (out : Dict),
    (∀ pv ∈ L, pv.1 ≠ [] ∧ ∀ s ∈ pv.1, ('.' : Char) ∉ s) →
    nestFold (L.map (fun pv => (joinPath pv.1, pv.2))) dotSep out = pathFold L out := by
  intro L
  induction L with
  | nil => intro out _; simp [nestFold, pathFold]
  | cons pv L2 ih =>
    intro out hok
    obtain ⟨p, v⟩ := pv
    obtain ⟨hne, hdots⟩ := hok (p, v) (List.mem_cons_self _ _)
    simp only [List.map_cons, nestFold, pathFold]
    rw [nestSegs_eq_splitAll (joinPath p)]
    rw [splitAll_joinPath p hne hdots]
    cases hng : nest_go p v out with
    | error e => rfl
    | ok out2 => exact ih out2 (fun pv2 h2 => hok pv2 (by simp [h2]))

/-- C2 (amended): nesting the flattening of a nested mapping reproduces
the mapping exactly, provided the mapping is well-formed for the default
period separator: keys are unique per level, non-empty and free of the
separator character, every nested sub-dict is non-empty, and (as in the
original claim) no flattened key ends in grid_search. -/
theorem claim2_roundtrip_amended : ∀ m : Dict, wfD m = true →
    (flatten_dict m dotSep []).all (fun kv => !((str "grid_search").isSuffixOf kv.1)) = true →
    nest_dict (flatten_dict m dotSep []) dotSep = .ok m := by
  intro m hwf _
  rw [flatten_dict_leaves m hwf]
  rw [nest_dict]
  rw [nestFold_pathFold (leaves m) [] ?hok]
  · exact (pathFold_leaves m hwf [] (by intro x _ hx; simp [keysD] at hx)).trans (by simp)
  case hok =>
    intro pv hpv
    obtain ⟨hne, hok⟩ := leaves_path_ok m hwf pv hpv
    exact ⟨hne, fun s hs => (hok s hs).2⟩

/-- Witness for the amended C2 at a concrete two-level mapping. -/
theorem claim2_roundtrip_amended_wit :
    nest_dict (flatten_dict
        [(str "a", Val.vmap [(str "b", Val.vnat 3), (str "c", Val.vnat 4)]), (str "e", Val.vnat 5)]
        dotSep []) dotSep
      = .ok [(str "a", Val.vmap [(str "b", Val.vnat 3), (str "c", Val.vnat 4)]),
             (str "e", Val.vnat 5)] :=
  claim2_roundtrip_amended _
    (by simp [wfD, wfV, dlookup, keysD, str, List.contains, List.elem_eq_mem])
    (by simp [flatten_dict, flattenLoop, dupdate, dset, str, dotSep, List.isSuffixOf,
      List.isPrefixOf])

theorem deepcopy_bounds : ∀ n : Nat,
    (∀ (c : Nat) (h : HVal), sizeOf h ≤ n →
      c < (deepcopy c h).2 ∧ ∀ i ∈ ids (deepcopy c h).1, c ≤ i ∧ i < (deepcopy c h).2)
    ∧ (∀ (c : Nat) (fs : HFields), sizeOf fs ≤ n →
      c ≤ (deepcopyF c fs).2 ∧ ∀ i ∈ idsF (deepcopyF c fs).1, c ≤ i ∧ i < (deepcopyF c fs).2)
    ∧ (∀ (c : Nat) (l : List HVal), sizeOf l ≤ n →
      c ≤ (deepcopyL c l).2 ∧ ∀ i ∈ idsL (deepcopyL c l).1, c ≤ i ∧ i < (deepcopyL c l).2) := by
  intro n
  induction n using Nat.strong_induction_on with
  | _ n ih =>
    refine ⟨?_, ?_, ?_⟩
    · intro c h hsz
      cases h with
      | leaf j p => simp [deepcopy, ids]
      | params j fs =>
        have hlt : sizeOf fs < n := by
          have : sizeOf fs < sizeOf (HVal.params j fs) := by simp <;> omega
          omega
        obtain ⟨hm, hb⟩ := (ih (sizeOf fs) hlt).2.1 (c + 1) fs (le_refl _)
        simp only [deepcopy, ids]
        constructor
        · omega
        · intro i hi
          rw [List.mem_cons] at hi
          rcases hi with rfl | hi
          · omega
          · have := hb i hi
            omega
      | settings j xs =>
        have hlt : sizeOf xs < n := by
          have : sizeOf xs < sizeOf (HVal.settings j xs) := by simp <;> omega
          omega
        obtain ⟨hm, hb⟩ := (ih (sizeOf xs) hlt).2.2 (c + 1) xs (le_refl _)
        simp only [deepcopy, ids]
        constructor
        · omega
        · intro i hi
          rw [List.mem_cons] at hi
          rcases hi with rfl | hi
          · omega
          · have := hb i hi
            omega
    · intro c fs hsz
      cases fs with
      | nil => simp [deepcopyF, idsF]
      | cons kv rest =>
        obtain ⟨k, v⟩ := kv
        have hv : sizeOf v < n := by
          have : sizeOf v < sizeOf ((k, v) :: rest) := by simp <;> omega
          omega
        have hrest : sizeOf rest < n := by
          have : sizeOf rest < sizeOf ((k, v) :: rest) := by simp <;> omega
          omega
        obtain ⟨hm1, hb1⟩ := (ih (sizeOf v) hv).1 c v (le_refl _)
        obtain ⟨hm2, hb2⟩ := (ih (sizeOf rest) hrest).2.1 (deepcopy c v).2 rest (le_refl _)
        simp only [deepcopyF, idsF]
        constructor
        · omega
        · intro i hi
          rw [List.mem_append] at hi
          rcases hi with hi | hi
          · have := hb1 i hi
            omega
          · have := hb2 i hi
            omega
    · intro c l hsz
      cases l with
      | nil => simp [deepcopyL, idsL]
      | cons v rest =>
        have hv : sizeOf v < n := by
          have : sizeOf v < sizeOf (v :: rest) := by simp <;> omega
          omega
        have hrest : sizeOf rest < n := by
          have : sizeOf rest < sizeOf (v :: rest) := by simp <;> omega
          omega
        obtain ⟨hm1, hb1⟩ := (ih (sizeOf v) hv).1 c v (le_refl _)
        obtain ⟨hm2, hb2⟩ := (ih (sizeOf rest) hrest).2.2 (deepcopy c v).2 rest (le_refl _)
        simp only [deepcopyL, idsL]
        constructor
        · omega
        · intro i hi
          rw [List.mem_append] at hi
          rcases hi with hi | hi
          · have := hb1 i hi
            omega
          · have := hb2 i hi
            omega

theorem outLoopH_bounds (sid : Nat) (keys : List String) : ∀ (ts : List (List HVal))
    (c : Nat) (sfs : HFields),
    c ≤ (outLoopH c sid sfs keys ts).2
    ∧ (∀ out ∈ (outLoopH c sid sfs keys ts).1, ∀ i ∈ ids out,
        c ≤ i ∧ i < (outLoopH c sid sfs keys ts).2)
    ∧ List.Pairwise (fun a b => ∀ i ∈ ids a, i ∉ ids b) (outLoopH c sid sfs keys ts).1 := by
  intro ts
  induction ts with
  | nil =>
    intro c sfs
    simp [outLoopH]
  | cons t ts ih =>
    intro c sfs
    obtain ⟨hdc, hdb⟩ := (deepcopy_bounds (sizeOf (HVal.params sid (assignAllH sfs (keys.zip t))))).1
      c (HVal.params sid (assignAllH sfs (keys.zip t))) (le_refl _)
    obtain ⟨ihm, ihb, ihp⟩ := ih (deepcopy c (HVal.params sid (assignAllH sfs (keys.zip t)))).2
      (assignAllH sfs (keys.zip t))
    simp only [outLoopH]
    refine ⟨by omega, ?_, ?_⟩
    · intro out hout i hi
      rw [List.mem_cons] at hout
      rcases hout with rfl | hout
      · have := hdb i hi
        omega
      · have := ihb out hout i hi
        omega
    · rw [List.pairwise_cons]
      refine ⟨?_, ihp⟩
      intro out hout i hi hi2
      have h1 := hdb i hi
      have h2 := ihb out hout i hi2
      omega

theorem hmono : ∀ n : Nat,
    (∀ (c : Nat) (fs : HFields) (outs : List HVal) (c2 : Nat), sizeOf fs ≤ n →
        get_settingsH c fs = .ok (outs, c2) → c ≤ c2)
    ∧ (∀ (c : Nat) (l : HFields) (ks : List String) (vs : List (List HVal)) (c2 : Nat),
        sizeOf l ≤ n → collectVaryingH c l = .ok (ks, vs, c2) → c ≤ c2)
    ∧ (∀ (c : Nat) (items : List HVal) (outs : List HVal) (c2 : Nat), sizeOf items ≤ n →
        expandAllH c items = .ok (outs, c2) → c ≤ c2) := by
  intro n
  induction n using Nat.strong_induction_on with
  | _ n ih =>
    have hexp : ∀ (c : Nat) (items : List HVal) (outs : List HVal) (c2 : Nat),
        sizeOf items ≤ n → expandAllH c items = .ok (outs, c2) → c ≤ c2 := by
      intro c items outs c2 hsz hok
      cases items with
      | nil =>
        simp only [expandAllH] at hok
        injection hok with hok
        injection hok with _ hok
        omega
      | cons v rest =>
        cases v with
        | leaf j p =>
          simp only [expandAllH] at hok
          exact Except.noConfusion hok
        | settings j xs =>
          simp only [expandAllH] at hok
          exact Except.noConfusion hok
        | params pid sub =>
          simp only [expandAllH] at hok
          have hsub : sizeOf sub < n := by
            have : sizeOf sub < sizeOf (HVal.params pid sub :: rest) := by simp <;> omega
            omega
          have hrest : sizeOf rest < n := by
            have : sizeOf rest < sizeOf (HVal.params pid sub :: rest) := by simp <;> omega
            omega
          cases hg : get_settingsH c sub with
          | error e =>
            rw [hg] at hok
            exact Except.noConfusion hok
          | ok p1 =>
            rw [hg] at hok
            dsimp only at hok
            cases hrec : expandAllH p1.2 rest with
            | error e =>
              rw [hrec] at hok
              exact Except.noConfusion hok
            | ok p2 =>
              rw [hrec] at hok
              dsimp only at hok
              injection hok with hok
              injection hok with _ hok
              have h1 := (ih (sizeOf sub) hsub).1 c sub p1.1 p1.2 (le_refl _) (by rw [hg])
              have h2 := (ih (sizeOf rest) hrest).2.2 p1.2 rest p2.1 p2.2 (le_refl _)
                (by rw [hrec])
              omega
    have hsc : ∀ (c : Nat) (items : List HVal) (cand : List HVal) (c1 : Nat),
        sizeOf items ≤ n → settingsCandidatesH c items = .ok (cand, c1) → c ≤ c1 := by
      intro c items cand c1 hsz hok
      cases items with
      | nil =>
        simp only [settingsCandidatesH] at hok
        injection hok with hok
        injection hok with _ hok
        omega
      | cons v rest =>
        cases v with
        | params pid sub =>
          simp only [settingsCandidatesH] at hok
          exact hexp c _ cand c1 hsz hok
        | leaf j p =>
          simp only [settingsCandidatesH] at hok
          injection hok with hok
          injection hok with _ hok
          omega
        | settings j xs =>
          simp only [settingsCandidatesH] at hok
          injection hok with hok
          injection hok with _ hok
          omega
    have hcol : ∀ (c : Nat) (l : HFields) (ks : List String) (vs : List (List HVal)) (c2 : Nat),
        sizeOf l ≤ n → collectVaryingH c l = .ok (ks, vs, c2) → c ≤ c2 := by
      intro c l
      induction l generalizing c with
      | nil =>
        intro ks vs c2 _ hok
        simp only [collectVaryingH] at hok
        injection hok with hok
        injection hok with _ hok
        injection hok with _ hok
        omega
      | cons kv rest ihl =>
        intro ks vs c2 hsz hok
        obtain ⟨k, v⟩ := kv
        have hrsz : sizeOf rest ≤ n := by
          have : sizeOf rest < sizeOf ((k, v) :: rest) := by simp <;> omega
          omega
        cases v with
        | leaf j p =>
          simp only [collectVaryingH] at hok
          exact ihl c ks vs c2 hrsz hok
        | params pid sub =>
          simp only [collectVaryingH] at hok
          have hsub : sizeOf sub < n := by
            have : sizeOf sub < sizeOf ((k, HVal.params pid sub) :: rest) := by simp <;> omega
            omega
          cases hg : get_settingsH c sub with
          | error e =>
            rw [hg] at hok
            exact Except.noConfusion hok
          | ok p1 =>
            rw [hg] at hok
            dsimp only at hok
            cases hrec : collectVaryingH p1.2 rest with
            | error e =>
              rw [hrec] at hok
              exact Except.noConfusion hok
            | ok p2 =>
              rw [hrec] at hok
              dsimp only at hok
              injection hok with hok
              have hc2 : p2.2.2 = c2 := congrArg (fun q => q.2.2) hok
              have h1 := (ih (sizeOf sub) hsub).1 c sub p1.1 p1.2 (le_refl _) (by rw [hg])
              have h2 := ihl p1.2 p2.1 p2.2.1 p2.2.2 hrsz (by rw [hrec])
              omega
        | settings sid items =>
          simp only [collectVaryingH] at hok
          have hisz : sizeOf items ≤ n := by
            have : sizeOf items < sizeOf ((k, HVal.settings sid items) :: rest) := by
              simp <;> omega
            omega
          by_cases hl : items.length = 0
          · rw [if_pos hl] at hok
            exact Except.noConfusion hok
          · rw [if_neg hl] at hok
            cases hs : settingsCandidatesH c items with
            | error e =>
              rw [hs] at hok
              exact Except.noConfusion hok
            | ok p1 =>
              rw [hs] at hok
              dsimp only at hok
              cases hrec : collectVaryingH p1.2 rest with
              | error e =>
                rw [hrec] at hok
                exact Except.noConfusion hok
              | ok p2 =>
                rw [hrec] at hok
                dsimp only at hok
                injection hok with hok
                have hc2 : p2.2.2 = c2 := congrArg (fun q => q.2.2) hok
                have h1 := hsc c items p1.1 p1.2 hisz (by rw [hs])
                have h2 := ihl p1.2 p2.1 p2.2.1 p2.2.2 hrsz (by rw [hrec])
                omega
    refine ⟨?_, hcol, hexp⟩
    intro c fs outs c2 hsz hok
    simp only [get_settingsH] at hok
    cases hc : collectVaryingH c fs with
    | error e =>
      rw [hc] at hok
      exact Except.noConfusion hok
    | ok p1 =>
      rw [hc] at hok
      dsimp only at hok
      injection hok with hok
      have hc2 : (outLoopH (deepcopyF (p1.2.2 + 1) fs).2 p1.2.2 (deepcopyF (p1.2.2 + 1) fs).1
          p1.1 (cartProd p1.2.1)).2 = c2 := congrArg (fun q => q.2) hok
      have h1 := hcol c fs p1.1 p1.2.1 p1.2.2 hsz (by rw [hc])
      have h2 := (deepcopy_bounds (sizeOf fs)).2.1 (p1.2.2 + 1) fs (le_refl _)
      have h3 := (outLoopH_bounds p1.2.2 p1.1 (cartProd p1.2.1)
        (deepcopyF (p1.2.2 + 1) fs).2 (deepcopyF (p1.2.2 + 1) fs).1).1
      omega

theorem setField_preserve (k0 k : String) (v : PVal) (hne : k0 ≠ k) :
    ∀ s : Fields, plookup (setField s k0 v) k = plookup s k := by
  intro s
  induction s with
  | nil => simp [setField, plookup, hne]
  | cons kv rest ih =>
    obtain ⟨k1, v1⟩ := kv
    by_cases h : k1 = k0
    · subst h
      simp [setField, plookup, hne]
    · simp only [setField, if_neg h, plookup]
      by_cases h2 : k1 = k
      · simp [h2]
      · simp [h2, ih]

theorem assignAll_preserve (k : String) : ∀ (kvs : List (String × PVal)) (s : Fields),
    (∀ kv ∈ kvs, kv.1 ≠ k) → plookup (assignAll s kvs) k = plookup s k := by
  intro kvs
  induction kvs with
  | nil => intro s _; simp [assignAll]
  | cons kv rest ih =>
    intro s h
    obtain ⟨k0, v0⟩ := kv
    rw [assignAll_cons]
    rw [ih (setField s k0 v0) (fun kv2 h2 => h kv2 (by simp [h2]))]
    exact setField_preserve k0 k v0 (h (k0, v0) (by simp)) s

theorem outLoop_preserve (keys : List String) (k : String) (hk : k ∉ keys) :
    ∀ (ts : List (List PVal)) (s : Fields),
    ∀ out ∈ outLoop s keys ts, plookup out k = plookup s k := by
  intro ts
  induction ts with
  | nil => intro s out hout; simp [outLoop] at hout
  | cons t ts ih =>
    intro s out hout
    have hzip : ∀ kv ∈ keys.zip t, kv.1 ≠ k := by
      intro kv hkv he
      exact hk (he ▸ (List.of_mem_zip hkv).1)
    simp only [outLoop, List.mem_cons] at hout
    rcases hout with rfl | hout
    · exact assignAll_preserve k (keys.zip t) s hzip
    · rw [ih (assignAll s (keys.zip t)) out hout]
      exact assignAll_preserve k (keys.zip t) s hzip

theorem plookup_mem (fs : Fields) (k : String) (v : PVal)
    (hnd : (namesP fs).Nodup) (hmem : (k, v) ∈ fs) : plookup fs k = some v := by
  induction fs with
  | nil => cases hmem
  | cons kv rest ih =>
    obtain ⟨k0, v0⟩ := kv
    rw [namesP, List.map_cons, List.nodup_cons] at hnd
    rcases List.mem_cons.mp hmem with heq | hmem2
    · injection heq with h1 h2
      subst h1
      subst h2
      simp [plookup]
    · have hne : ¬ (k0 = k) := by
        intro he
        subst he
        exact hnd.1 (by
          have : k0 ∈ (rest.map Prod.fst) := by
            exact List.mem_map.mpr ⟨(k0, v), hmem2, rfl⟩
          simpa [namesP] using this)
      simp only [plookup, if_neg hne]
      exact ih (by simpa [namesP] using hnd.2) hmem2

theorem collect_keys_varying : ∀ (fs : Fields) (keys : List String) (vls : List (List PVal)),
    collectVarying fs = .ok (keys, vls) →
    ∀ k ∈ keys, ∃ v, (k, v) ∈ fs ∧ isVarying v = true := by
  intro fs
  induction fs with
  | nil =>
    intro keys vls h k hk
    simp [collectVarying] at h
    obtain ⟨rfl, _⟩ := h
    cases hk
  | cons kv rest ih =>
    intro keys vls h k hk
    obtain ⟨k0, v0⟩ := kv
    cases v0 with
    | leaf n =>
      simp only [collectVarying] at h
      obtain ⟨v, hv1, hv2⟩ := ih keys vls h k hk
      exact ⟨v, by simp [hv1], hv2⟩
    | params sub =>
      simp only [collectVarying] at h
      cases hg : get_settings sub with
      | error e =>
        rw [hg] at h
        exact Except.noConfusion h
      | ok subs =>
        rw [hg] at h
        dsimp only at h
        cases hc : collectVarying rest with
        | error e =>
          rw [hc] at h
          exact Except.noConfusion h
        | ok p =>
          rw [hc] at h
          dsimp only at h
          injection h with h
          have hks : k0 :: p.1 = keys := congrArg Prod.fst h
          rw [← hks] at hk
          rcases List.mem_cons.mp hk with rfl | hk2
          · exact ⟨PVal.params sub, by simp, by simp [isVarying]⟩
          · obtain ⟨v, hv1, hv2⟩ := ih p.1 p.2 (by rw [hc]) k hk2
            exact ⟨v, by simp [hv1], hv2⟩
    | settings items =>
      simp only [collectVarying] at h
      by_cases hl : items.length = 0
      · rw [if_pos hl] at h
        exact Except.noConfusion h
      · rw [if_neg hl] at h
        cases hs : settingsCandidates items with
        | error e =>
          rw [hs] at h
          exact Except.noConfusion h
        | ok cand =>
          rw [hs] at h
          dsimp only at h
          cases hc : collectVarying rest with
          | error e =>
            rw [hc] at h
            exact Except.noConfusion h
          | ok p =>
            rw [hc] at h
            dsimp only at h
            injection h with h
            have hks : k0 :: p.1 = keys := congrArg Prod.fst h
            rw [← hks] at hk
            rcases List.mem_cons.mp hk with rfl | hk2
            · exact ⟨PVal.settings items, by simp, by simp [isVarying]⟩
            · obtain ⟨v, hv1, hv2⟩ := ih p.1 p.2 (by rw [hc]) k hk2
              exact ⟨v, by simp [hv1], hv2⟩

/-- C7: every output of get_settings preserves every fixed (non-varying)
field of the original tree untouched; and in the id-instrumented model,
where copy.deepcopy allocates fresh object ids, the outputs of
get_settingsH are pairwise disjoint in object ids and share no id with
the input tree — mutating one output can affect neither another output
nor the original input. -/
theorem claim7_expansion_independence :
    (∀ (fs : Fields) (keys : List String) (vls : List (List PVal)) (outs : List Fields),
        (namesP fs).Nodup →
        collectVarying fs = .ok (keys, vls) →
        get_settings fs = .ok outs →
        ∀ out ∈ outs, ∀ (k : String) (v : PVal),
          (k, v) ∈ fs → isVarying v = false → plookup out k = some v)
    ∧ (∀ (c : Nat) (fs : HFields) (outs : List HVal) (c2 : Nat),
        (∀ i ∈ idsF fs, i < c) →
        get_settingsH c fs = .ok (outs, c2) →
        List.Pairwise (fun a b => ∀ i ∈ ids a, i ∉ ids b) outs
        ∧ ∀ out ∈ outs, ∀ i ∈ ids out, i ∉ idsF fs) := by
  constructor
  · intro fs keys vls outs hnd hc hg out hout k v hmem hnv
    have hout2 : get_settings fs = .ok (outLoop fs keys (cartProd vls)) := by
      simp [get_settings, hc]
    rw [hout2] at hg
    injection hg with hg
    rw [← hg] at hout
    have hkn : k ∉ keys := by
      intro hk
      obtain ⟨v2, hmem2, hv2⟩ := collect_keys_varying fs keys vls hc k hk
      have e1 : plookup fs k = some v := plookup_mem fs k v hnd hmem
      have e2 : plookup fs k = some v2 := plookup_mem fs k v2 hnd hmem2
      rw [e1] at e2
      injection e2 with e2
      rw [← e2] at hv2
      rw [hnv] at hv2
      exact Bool.noConfusion hv2
    rw [outLoop_preserve keys k hkn (cartProd vls) fs out hout]
    exact plookup_mem fs k v hnd hmem
  · intro c fs outs c2 hin hok
    simp only [get_settingsH] at hok
    cases hc : collectVaryingH c fs with
    | error e =>
      rw [hc] at hok
      exact Except.noConfusion hok
    | ok p1 =>
      rw [hc] at hok
      dsimp only at hok
      injection hok with hok
      have houts : (outLoopH (deepcopyF (p1.2.2 + 1) fs).2 p1.2.2 (deepcopyF (p1.2.2 + 1) fs).1
          p1.1 (cartProd p1.2.1)).1 = outs := congrArg Prod.fst hok
      obtain ⟨hm, hb, hp⟩ := outLoopH_bounds p1.2.2 p1.1 (cartProd p1.2.1)
        (deepcopyF (p1.2.2 + 1) fs).2 (deepcopyF (p1.2.2 + 1) fs).1
      constructor
      · rw [← houts]
        exact hp
      · intro out hout i hi hiF
        have h1 := hin i hiF
        have hcm := (hmono (sizeOf fs)).2.1 c fs p1.1 p1.2.1 p1.2.2 (le_refl _) (by rw [hc])
        have hdm := ((deepcopy_bounds (sizeOf fs)).2.1 (p1.2.2 + 1) fs (le_refl _)).1
        have h2 := (hb out (by rw [houts]; exact hout) i hi).1
        omega

/-- Witness for C7 at concrete inputs: the fixed field "m" keeps its value
in the first output, and a one-field instrumented expansion yields outputs
disjoint in ids from each other and from the input. -/
theorem claim7_expansion_independence_wit :
    plookup [("lr", PVal.leaf 1), ("m", PVal.leaf 9)] "m" = some (PVal.leaf 9)
    ∧ (List.Pairwise (fun a b => ∀ i ∈ ids a, i ∉ ids b)
        [HVal.params 6 [("a", HVal.leaf 7 5)]]
      ∧ ∀ out ∈ [HVal.params 6 [("a", HVal.leaf 7 5)]], ∀ i ∈ ids out,
          i ∉ idsF [("a", HVal.settings 1 [HVal.leaf 2 5])]) := by
  constructor
  · exact claim7_expansion_independence.1
      [("lr", PVal.settings [PVal.leaf 1, PVal.leaf 2]), ("m", PVal.leaf 9)]
      ["lr"] [[PVal.leaf 1, PVal.leaf 2]]
      [[("lr", PVal.leaf 1), ("m", PVal.leaf 9)], [("lr", PVal.leaf 2), ("m", PVal.leaf 9)]]
      (by simp [namesP])
      (by simp [collectVarying, settingsCandidates])
      (by simp [get_settings, collectVarying, settingsCandidates, cartProd, outLoop,
        assignAll, setField])
      [("lr", PVal.leaf 1), ("m", PVal.leaf 9)] (by simp)
      "m" (PVal.leaf 9) (by simp) (by simp [isVarying])
  · exact claim7_expansion_independence.2 3 [("a", HVal.settings 1 [HVal.leaf 2 5])]
      [HVal.params 6 [("a", HVal.leaf 7 5)]] 8
      (by
        intro i hi
        simp [idsF, ids, idsL] at hi
        rcases hi with rfl | rfl <;> omega)
      (by simp [get_settingsH, collectVaryingH, settingsCandidatesH, deepcopyF, deepcopy,
        deepcopyL, outLoopH, assignAllH, setFieldH, cartProd])
